import Mathlib

/-!
Verification development for `seelie.py`, a declarative project-path
synchronizer.  The Python source is shallowly embedded here:

* pure string algorithms of the standard library that the program relies on
  (`os.path.normpath`, `os.path.join(p, "")`) are embedded as Lean functions;
* environment-dependent primitives (`os.path.expanduser`, `os.path.isdir`,
  `os.chdir` success, `subprocess.call`, `subprocess.check_output`,
  `socket.gethostname`, `time.strftime`) are fields of an `Env` oracle;
* Python exceptions are modelled by `Except PyExc`;
* Python object identity (relevant because `Seelie.apply` stores `SeeliePath`
  objects in `error_paths` while testing membership with path strings) is
  modelled by `PyVal`, which distinguishes a string value from an object
  identified by its creation site (project index, item index);
* the recursive closure `apply_project` is embedded with an explicit fuel
  argument; termination is proved as a theorem (the fuel chosen by
  `Seelie.applyRun` is shown sufficient for every input).

Element text of the configuration tree is modelled as a plain string;
configurations containing empty elements (where `ElementTree` yields `None`
as text) are outside the scope of this development.
-/

/-- Python exceptions that the embedded code can raise. -/
inductive PyExc where
  | keyError
  | valueError
  | typeError
  | osError
  | notImplementedError
deriving DecidableEq, Repr, Inhabited

/-- A Python value as far as set membership is concerned: either a string, or
a `SeeliePath` object identified by its creation site (index of the owning
project and index of the item inside it) and carrying its `path` field.
Default (identity-based) equality never identifies a string with an object. -/
inductive PyVal where
  | pstr (s : String)
  | pobj (proj item : Nat) (path : String)
deriving DecidableEq, Repr, Inhabited

/-- Python `==` between the values of `PyVal`: strings compare by content,
objects by identity, and a string never equals a `SeeliePath` object. -/
def pyEq : PyVal → PyVal → Bool
  | .pstr a, .pstr b => a == b
  | .pobj a b p, .pobj a' b' p' => a == a' && b == b' && p == p'
  | _, _ => false

/-- The `path` attribute used by the final report (`x.path` at line 268);
`error_paths` only ever holds `SeeliePath` objects. -/
def pathOfPyVal : PyVal → String
  | .pstr s => s
  | .pobj _ _ p => p

/-- Outcome of `subprocess.call`: an exit status, or an `OSError` raised
while spawning the process. -/
inductive CallOutcome where
  | exit (code : Nat)
  | osError
deriving DecidableEq, Repr, Inhabited

/-- Outcome of `subprocess.check_output`. -/
inductive CheckOutcome where
  | output (s : String)
  | calledProcessError
  | osError
deriving DecidableEq, Repr, Inhabited

/-- The external world: filesystem, process spawning, host identity.
`expanduser` is the (environment-dependent) `os.path.expanduser`;
`isdir` is `os.path.isdir`; `chdirOk p` tells whether `os.chdir p`
succeeds; `call`/`checkOutput` give the outcomes of the subprocess
invocations with the given argument vectors. -/
structure Env where
  expanduser : String → String
  isdir : String → Bool
  chdirOk : String → Bool
  call : List String → CallOutcome
  checkOutput : List String → CheckOutcome
  hostname : String
  timeStr : String

/-! ## Pure `os.path` string algorithms (POSIX flavor) -/

/-- Last element of a list, if any. -/
def lastOpt {α : Type} : List α → Option α
  | [] => none
  | [a] => some a
  | _ :: b :: rest => lastOpt (b :: rest)

theorem lastOpt_cons_ne_none {α : Type} :
    ∀ (a : α) (l : List α), lastOpt (a :: l) ≠ none := by
  intro a l
  induction l generalizing a with
  | nil => simp [lastOpt]
  | cons b rest ih => simpa [lastOpt] using ih b

theorem lastOpt_cons {α : Type} (a : α) (l : List α) :
    lastOpt (a :: l) = (lastOpt l).elim (some a) some := by
  cases l with
  | nil => rfl
  | cons b rest =>
    show lastOpt (b :: rest) = (lastOpt (b :: rest)).elim (some a) some
    cases hl : lastOpt (b :: rest) with
    | none => exact absurd hl (lastOpt_cons_ne_none b rest)
    | some x => rfl

/-- `str.split('/')` on a character list. -/
def splitSlash : List Char → List (List Char)
  | [] => [[]]
  | c :: cs =>
    if c = '/' then [] :: splitSlash cs
    else
      match splitSlash cs with
      | [] => [[c]]
      | h :: t => (c :: h) :: t

/-- `'/'.join(comps)` on character lists. -/
def joinSlash : List (List Char) → List Char
  | [] => []
  | [x] => x
  | x :: xs => x ++ '/' :: joinSlash xs

/-- One step of the `normpath` component loop: skip `''` and `'.'`, push
ordinary components, and let `'..'` pop the previous component unless it must
be kept (relative prefix of `..`s, or nothing to pop at the root). -/
def normpathStep (initialSlashes : Nat) (acc : List (List Char)) (comp : List Char) :
    List (List Char) :=
  if comp = [] ∨ comp = ['.'] then acc
  else if comp ≠ ['.', '.'] ∨ (initialSlashes = 0 ∧ acc = []) ∨
      (acc ≠ [] ∧ acc.getLast? = some ['.', '.']) then acc ++ [comp]
  else if acc ≠ [] then acc.dropLast
  else acc

/-- The number of leading slashes `normpath` preserves: two when the path
starts with exactly two slashes (POSIX allows `//` a special meaning), one
for any other absolute path, zero for a relative one. -/
def initialSlashesOf (cs : List Char) : Nat :=
  if cs.take 1 = ['/'] then
    (if cs.take 2 = ['/', '/'] ∧ ¬ cs.take 3 = ['/', '/', '/'] then 2 else 1)
  else 0

/-- The character list `normpath` produces before the final empty-result
check: the preserved leading slashes followed by the collapsed components
joined with `/`. -/
def normpathRes (cs : List Char) : List Char :=
  List.replicate (initialSlashesOf cs) '/' ++
    joinSlash ((splitSlash cs).foldl (normpathStep (initialSlashesOf cs)) [])

/-- `posixpath.normpath`: collapse `//`, `.` and `..` (a leading double slash
is kept, per POSIX); the empty string and an empty result normalize to
`"."`. -/
def normpath (p : String) : String :=
  if p = "" then "."
  else if normpathRes p.data = [] then "." else String.mk (normpathRes p.data)

/-- `posixpath.join(p, "")`: append a slash unless one is already there
(or `p` is empty). -/
def joinEmpty (p : String) : String :=
  if p = "" then ""
  else if lastOpt p.data = some '/' then p
  else p ++ "/"

/-- Whether a path string ends in the path separator. -/
def endsWithSlash (s : String) : Bool := lastOpt s.data == some '/'

/-! ## Entities -/

/-- The data of a `SeeliePath` (line 531): canonical path, optional tool
identifier, optional origin. -/
structure SeeliePath where
  path : String
  tool : Option String
  origin : Option String
deriving DecidableEq, Repr, Inhabited

/-- `SeeliePath.__init__` (lines 537-542): expand the home directory,
normalize, and append a separator when the result is an existing directory. -/
def SeeliePath.init (env : Env) (rawPath : String) (tool origin : Option String) :
    SeeliePath :=
  let p := normpath (env.expanduser rawPath)
  let p := if env.isdir p then joinEmpty p else p
  { path := p, tool := tool, origin := origin }

/-- A project item: a `SeeliePath` or a `SeelieRef` (reference by name). -/
inductive SeelieItem where
  | path (p : SeeliePath)
  | ref (name : String)
deriving DecidableEq, Repr, Inhabited

/-- A `SeelieProject` (line 561): optional display name, auto flag, ordered
items. -/
structure SeelieProject where
  name : Option String
  auto : Bool
  items : List SeelieItem
deriving DecidableEq, Repr, Inhabited

/-- A parsed XML element: tag, text, attributes, children. -/
structure XmlNode where
  tag : String
  text : String
  attrib : List (String × String)
  children : List XmlNode
deriving Repr, Inhabited

/-- `node.attrib.get(key, None)`. -/
def attribGet (attrib : List (String × String)) (key : String) : Option String :=
  (attrib.find? (fun kv => kv.1 == key)).map (·.2)

/-- ASCII lowering of one character (tags and attribute values in scope are
ASCII, where Python `str.lower` agrees with this). -/
def lowerAscii (c : Char) : Char :=
  if 'A' ≤ c ∧ c ≤ 'Z' then Char.ofNat (c.toNat + 32) else c

/-- `str.lower` on ASCII strings. -/
def strLower (s : String) : String := String.mk (s.data.map lowerAscii)

/-- `SeelieProject.__init__` (lines 568-599): the `auto` attribute parses
`"false"`/`"0"` (case-insensitive for `false`) as false and anything else as
true; children are scanned in order, a `name` child assigns the display name
(each occurrence overwrites the previous one, a duplicate only warns), a
`path` child appends a `SeeliePath`, a `reference` child appends a
`SeelieRef`, and other children are ignored. -/
def SeelieProject.ofXml (env : Env) (node : XmlNode) : SeelieProject :=
  let autoStr := (attribGet node.attrib "auto").getD "true"
  let auto := ¬ (strLower autoStr = "false" ∨ autoStr = "0")
  let st := node.children.foldl
    (fun (st : Option String × List SeelieItem) child =>
      if strLower child.tag = "name" then
        (some child.text, st.2)
      else if strLower child.tag = "path" then
        (st.1, st.2 ++ [SeelieItem.path (SeeliePath.init env child.text
          (attribGet child.attrib "tool") (attribGet child.attrib "origin"))])
      else if strLower child.tag = "reference" then
        (st.1, st.2 ++ [SeelieItem.ref child.text])
      else st)
    (none, [])
  { name := st.1, auto := auto, items := st.2 }

/-! ## Synchronizer backends -/

/-- `subprocess.call` on an argument tuple that may contain `None` entries:
passing `None` where a path-like argument is expected raises `TypeError`
before the process is spawned. -/
def subprocessCall (env : Env) (args : List (Option String)) : Except PyExc Nat :=
  match args.mapM id with
  | none => .error .typeError
  | some as =>
    match env.call as with
    | .exit c => .ok c
    | .osError => .error .osError

/-- The commit message built at lines 416-417. -/
def commitMsg (env : Env) : String :=
  "seelie commit from " ++ env.hostname ++ " at " ++ env.timeStr

namespace GitSync

/-- `GitSync.update` (lines 331-372): default `src` to `"origin"`, `chdir`
into the path (an `IOError` is caught and recorded), then `git pull`
(with `--rebase` unless `merge`).  Note `error or subprocess.call(...)`
short-circuits: after a failed `chdir` no process is spawned.  An `OSError`
from `subprocess.call` itself is not caught here. -/
def update (env : Env) (path : String) (src : Option String) (merge : Bool)
    (_verbose : Bool) : Except PyExc Bool :=
  let src := src.getD "origin"
  if ¬ env.chdirOk (env.expanduser path) then
    .ok true
  else
    match env.call (if merge then ["git", "pull", src, "master"]
                    else ["git", "pull", "--rebase", src, "master"]) with
    | .exit c => .ok (c ≠ 0)
    | .osError => .error .osError

/-- `GitSync.push` (lines 374-428): default `dest` to `"origin"`, `chdir`
(caught), `git add --all`, `git status --porcelain` (a
`CalledProcessError` is caught; `status` keeps its truthy placeholder), and
when `status` is non-empty, commit and push.  All `error or ...` chains
short-circuit on the first truthy value, and an `OSError` from the
subprocess helpers is not caught. -/
def push (env : Env) (path : String) (dest : Option String) (_verbose : Bool) :
    Except PyExc Bool :=
  let dest := dest.getD "origin"
  if ¬ env.chdirOk (env.expanduser path) then
    .ok true
  else
    match env.call ["git", "add", "--all"] with
    | .osError => .error .osError
    | .exit cAdd =>
      if cAdd ≠ 0 then
        .ok true
      else
        match env.checkOutput ["git", "status", "--porcelain"] with
        | .osError => .error .osError
        | .calledProcessError => .ok true
        | .output st =>
          if st = "" then .ok false
          else
            match env.call ["git", "commit", "-m", commitMsg env] with
            | .osError => .error .osError
            | .exit cCommit =>
              if cCommit ≠ 0 then .ok true
              else
                match env.call ["git", "push", dest, "master"] with
                | .osError => .error .osError
                | .exit cPush => .ok (cPush ≠ 0)

/-- `GitSync.resolve` (lines 430-441) raises `NotImplementedError`. -/
def resolve (_env : Env) (_path : String) (_verbose : Bool) : Except PyExc Bool :=
  .error .notImplementedError

end GitSync

namespace RSync

/-- `RSync.update` (lines 450-483): `rsync -au[v] --delete SRC PATH`; only
`OSError` is caught (recorded as a failure), so the `TypeError` raised when
`src` is `None` propagates. -/
def update (env : Env) (path : String) (src : Option String) (_merge : Bool)
    (verbose : Bool) : Except PyExc Bool :=
  let flags := if verbose then "-auv" else "-au"
  match subprocessCall env [some "rsync", some flags, some "--delete", src, some path] with
  | .ok c => .ok (c ≠ 0)
  | .error .osError => .ok true
  | .error e => .error e

/-- `RSync.push` (lines 485-516): `rsync -au[v] --delete PATH DEST`; same
exception behavior as `update`. -/
def push (env : Env) (path : String) (dest : Option String) (verbose : Bool) :
    Except PyExc Bool :=
  let flags := if verbose then "-auv" else "-au"
  match subprocessCall env [some "rsync", some flags, some "--delete", some path, dest] with
  | .ok c => .ok (c ≠ 0)
  | .error .osError => .ok true
  | .error e => .error e

/-- `RSync.resolve` (lines 518-529) raises `NotImplementedError`. -/
def resolve (_env : Env) (_path : String) (_verbose : Bool) : Except PyExc Bool :=
  .error .notImplementedError

end RSync

/-- The backends present in the default `sync` dictionary of
`Seelie.__init__` (lines 102-107). -/
inductive SyncTool where
  | git
  | rsync
deriving DecidableEq, Repr

/-- `self.sync[item.tool]` on the default dictionary
`{'git': GitSync(), 'rsync': RSync(), None: GitSync()}`: any other key
raises `KeyError` (modelled as `none` here and raised at the lookup site). -/
def syncLookup : Option String → Option SyncTool
  | none => some .git
  | some t => if t = "git" then some .git else if t = "rsync" then some .rsync else none

/-- The mode dispatch of `apply_project` (lines 208-218): `update`, `push`
and `resolve` call the corresponding backend operation; any other mode
raises `ValueError`.  The dispatch happens after the tool lookup. -/
def dispatchSync (env : Env) (mode : String) (tool : SyncTool) (path : String)
    (origin : Option String) (merge : Bool) (vb : Bool) : Except PyExc Bool :=
  if mode = "update" then
    match tool with
    | .git => GitSync.update env path origin merge vb
    | .rsync => RSync.update env path origin merge vb
  else if mode = "push" then
    match tool with
    | .git => GitSync.push env path origin vb
    | .rsync => RSync.push env path origin vb
  else if mode = "resolve" then
    match tool with
    | .git => GitSync.resolve env path vb
    | .rsync => RSync.resolve env path vb
  else
    .error .valueError

/-! ## Registry construction (`Seelie.__init__`, lines 116-121) -/

/-- `dict(zip([p.name for p in projects], range(len(projects))))` with the
`None` key popped: lookup returns the index of the **last** project carrying
the name (later duplicates overwrite earlier entries). -/
def buildNamesAux : Nat → List SeelieProject → String → Option Nat
  | _, [], _ => none
  | i, p :: rest, q =>
    match buildNamesAux (i + 1) rest q with
    | some j => some j
    | none =>
      match p.name with
      | some n => if q = n then some i else none
      | none => none

/-- The name-to-index map of the registry. -/
def buildNames (ps : List SeelieProject) : String → Option Nat := buildNamesAux 0 ps

/-- `self.auto = [p.name for p in self.projects if p.auto]` — note this is a
list of *optional* names: an auto project without a name contributes `None`. -/
def autoNames (ps : List SeelieProject) : List (Option String) :=
  (ps.filter (·.auto)).map (·.name)

/-- Items of the `i`-th project (`self.projects[i]`, always indexed in range
by the source; out-of-range reads yield the empty default here). -/
def itemsOf (ps : List SeelieProject) (i : Nat) : List SeelieItem :=
  (ps.getD i default).items

/-! ## Traversal engine (`Seelie.apply`, lines 147-269) -/

/-- The mutable traversal state captured by the `apply_project` closure,
plus the instrumentation trace `visitTrace` recording each execution of the
per-project body in order. -/
structure TravState where
  visitedPaths : List String
  visitedProjects : List Bool
  errorPaths : List PyVal
  errorProjects : List Bool
  unknownProjects : List String
  visitTrace : List Nat
deriving DecidableEq, Repr, Inhabited

/-- Python `set.add` for strings (no-op when already present). -/
def setAddStr (l : List String) (s : String) : List String :=
  if l.any (· == s) then l else l ++ [s]

/-- Python `set.add` for `PyVal` values (no-op when already present). -/
def setAddPy (l : List PyVal) (v : PyVal) : List PyVal :=
  if l.any (fun w => pyEq w v) then l else l ++ [v]

/-- The body of the per-item loop of `apply_project` (lines 194-238) for a
single item.  `visit` is the recursive call used for references; `i` and `k`
identify the item (project index, item index) for object identity.

For a path item: when the canonical path was already visited, the recorded
error state is looked up with `item.path in error_paths` — a membership test
of a *string* in a set of `SeeliePath` *objects* (line 199 versus the
`error_paths.add(item)` at line 223).  Otherwise the path is marked visited,
the tool is looked up (`KeyError` on an unknown tool), and the mode dispatch
runs; a truthy result adds the item object to `error_paths`.

For a reference item: a resolvable name recurses, an unknown one is added to
`unknown_projects` and counts as an error. -/
def processItem (env : Env) (mode : String) (verbose : Nat) (merge : Bool)
    (namesF : String → Option Nat)
    (visit : Nat → TravState → Option (Except PyExc (Bool × TravState)))
    (i k : Nat) (item : SeelieItem) (s : TravState) :
    Option (Except PyExc (Bool × TravState)) :=
  match item with
  | .path p =>
    if s.visitedPaths.any (· == p.path) then
      some (.ok (s.errorPaths.any (fun w => pyEq (.pstr p.path) w), s))
    else
      let s1 := { s with visitedPaths := s.visitedPaths ++ [p.path] }
      match syncLookup p.tool with
      | none => some (.error .keyError)
      | some tool =>
        match dispatchSync env mode tool p.path p.origin merge (decide (1 < verbose)) with
        | .error e => some (.error e)
        | .ok err =>
          if err then
            some (.ok (true, { s1 with
              errorPaths := setAddPy s1.errorPaths (.pobj i k p.path) }))
          else
            some (.ok (false, s1))
  | .ref n =>
    match namesF n with
    | some j => visit j s
    | none => some (.ok (true, { s with unknownProjects := setAddStr s.unknownProjects n }))

/-- The item loop of `apply_project`: fold the items, accumulating
`any_error = any_error or error`. -/
def processItems (env : Env) (mode : String) (verbose : Nat) (merge : Bool)
    (namesF : String → Option Nat)
    (visit : Nat → TravState → Option (Except PyExc (Bool × TravState)))
    (i : Nat) :
    Nat → List SeelieItem → Bool → TravState → Option (Except PyExc (Bool × TravState))
  | _, [], anyError, s => some (.ok (anyError, s))
  | k, item :: rest, anyError, s =>
    match processItem env mode verbose merge namesF visit i k item s with
    | none => none
    | some (.error e) => some (.error e)
    | some (.ok (err, s')) =>
      processItems env mode verbose merge namesF visit i (k + 1) rest (anyError || err) s'

/-- `apply_project` (lines 173-240) with explicit fuel for the recursion on
references: an already-visited project immediately returns its recorded
error state; otherwise the project is marked visited (and its body entry is
traced), its items are processed in order, and the aggregate error is
recorded.  `none` means the fuel ran out (shown impossible for the fuel used
by `Seelie.applyRun`). -/
def applyProject (env : Env) (ps : List SeelieProject) (mode : String)
    (verbose : Nat) (merge : Bool) :
    Nat → Nat → TravState → Option (Except PyExc (Bool × TravState))
  | 0, _, _ => none
  | fuel + 1, i, s =>
    if s.visitedProjects.getD i false then
      some (.ok (s.errorProjects.getD i false, s))
    else
      let s1 := { s with
        visitedProjects := s.visitedProjects.set i true,
        visitTrace := s.visitTrace ++ [i] }
      match processItems env mode verbose merge (buildNames ps)
          (fun j t => applyProject env ps mode verbose merge fuel j t)
          i 0 (itemsOf ps i) false s1 with
      | none => none
      | some (.error e) => some (.error e)
      | some (.ok (anyError, s2)) =>
        some (.ok (anyError, { s2 with errorProjects := s2.errorProjects.set i anyError }))

/-- The top-level loop `for i in projects: apply_project(i, ...)`
(lines 243-244); results are discarded, exceptions propagate. -/
def runProjects (env : Env) (ps : List SeelieProject) (mode : String)
    (verbose : Nat) (merge : Bool) (fuel : Nat) :
    List Nat → TravState → Option (Except PyExc TravState)
  | [], s => some (.ok s)
  | i :: rest, s =>
    match applyProject env ps mode verbose merge fuel i s with
    | none => none
    | some (.error e) => some (.error e)
    | some (.ok (_, s')) => runProjects env ps mode verbose merge fuel rest s'

/-- `projects = [self.names[n] for n in self.auto]` (line 168): looking up
an auto project that has no name raises `KeyError` (the `None` key was
popped from the map). -/
def resolveAuto (namesF : String → Option Nat) : List (Option String) → Except PyExc (List Nat)
  | [] => .ok []
  | none :: _ => .error .keyError
  | some n :: rest =>
    match namesF n with
    | none => .error .keyError
    | some i =>
      match resolveAuto namesF rest with
      | .ok l => .ok (i :: l)
      | .error e => .error e

/-- Lexicographic string sort (`sorted`). -/
def sortStr (l : List String) : List String := List.insertionSort (· ≤ ·) l

/-- Python `==` between a selector string and a `SeelieProject` object:
`SeelieProject` defines no `__eq__`, so the comparison is by identity and a
string never equals a project object. -/
def pyStrEqProject (_n : String) (_p : SeelieProject) : Bool := false

/-- `n in self.projects` (line 259): membership of a selector string in the
list of `SeelieProject` objects. -/
def strInProjects (n : String) (ps : List SeelieProject) : Bool :=
  ps.any (pyStrEqProject n)

/-- `self.projects[i].name or ('seelie project #%d' % (i+1))` (lines
253-254); note that an empty-string name is falsy in Python and also falls
back to the positional label. -/
def projectLabel (ps : List SeelieProject) (i : Nat) : String :=
  match (ps.getD i default).name with
  | some n => if n = "" then "seelie project #" ++ toString (i + 1) else n
  | none => "seelie project #" ++ toString (i + 1)

/-- The report printed after the run (lines 245-269): sorted unknown names,
the failing projects (computed differently for defaulted and explicit
selectors), and the sorted failing path strings. -/
structure Summary where
  unknown : List String
  errProjects : List String
  errPaths : List String
deriving DecidableEq, Repr, Inhabited

/-- Build the report from the final traversal state (lines 246-269).  For
explicit selectors the failing-projects loop tests `n in self.projects`
(string versus project objects, line 259); the name-map lookup guarded by it
is unreachable. -/
def mkSummary (ps : List SeelieProject) (nms? : Option (List String))
    (reqIdx : List Nat) (s : TravState) : Summary :=
  { unknown := sortStr s.unknownProjects
    errProjects :=
      match nms? with
      | none =>
        reqIdx.foldl
          (fun acc i => if s.errorProjects.getD i false then acc ++ [projectLabel ps i] else acc) []
      | some ns =>
        ns.foldl
          (fun acc n =>
            if strInProjects n ps then
              match buildNames ps n with
              | some j => if s.errorProjects.getD j false then acc ++ [n] else acc
              | none => acc
            else acc) []
    errPaths := sortStr (s.errorPaths.map pathOfPyVal) }

/-- Result of a completed `Seelie.apply` run: the final traversal state, the
resolved top-level request list, and the report (produced only when
`verbose` is truthy, since the whole reporting block sits under
`if(verbose):` at line 245). -/
structure ApplyResult where
  state : TravState
  requested : List Nat
  summary : Option Summary
deriving DecidableEq, Repr, Inhabited

/-- `Seelie.apply` (lines 147-269).  Selector resolution: `None` selects all
auto projects by name lookup (raising `KeyError` for an unnamed auto
project); an explicit list keeps the resolvable names in order and records
the others as unknown.  The requested projects are then visited with
`apply_project`, and the report is built only when `verbose` is truthy. -/
def Seelie.applyRun (env : Env) (ps : List SeelieProject) (mode : String)
    (nms? : Option (List String)) (verbose : Nat) (merge : Bool) :
    Option (Except PyExc ApplyResult) :=
  let namesF := buildNames ps
  let res : Except PyExc (List Nat × List String) :=
    match nms? with
    | none => (resolveAuto namesF (autoNames ps)).map (fun l => (l, []))
    | some ns =>
      .ok (ns.filterMap namesF,
           ns.foldl (fun acc n => if (namesF n).isSome then acc else setAddStr acc n) [])
  match res with
  | .error e => some (.error e)
  | .ok (reqIdx, unknown0) =>
    let s0 : TravState :=
      { visitedPaths := []
        visitedProjects := List.replicate ps.length false
        errorPaths := []
        errorProjects := List.replicate ps.length false
        unknownProjects := unknown0
        visitTrace := [] }
    match runProjects env ps mode verbose merge (ps.length + 1) reqIdx s0 with
    | none => none
    | some (.error e) => some (.error e)
    | some (.ok s) =>
      some (.ok { state := s, requested := reqIdx,
                  summary := if verbose ≠ 0 then some (mkSummary ps nms? reqIdx s) else none })

/-! ## Result extractors used by concrete evaluations -/

/-- Whether a run completed without raising. -/
def isOkRun : Option (Except PyExc ApplyResult) → Bool
  | some (.ok _) => true
  | _ => false

/-- The exception a run raised, if any. -/
def excOfRun : Option (Except PyExc ApplyResult) → Option PyExc
  | some (.error e) => some e
  | _ => none

/-- The final state of a completed run (default state otherwise). -/
def runStateD (o : Option (Except PyExc ApplyResult)) : TravState :=
  match o with
  | some (.ok r) => r.state
  | _ => default

/-- The full result of a completed run (default otherwise). -/
def runResultD (o : Option (Except PyExc ApplyResult)) : ApplyResult :=
  match o with
  | some (.ok r) => r
  | _ => default

/-- The `summary` of a completed run (default summary when absent). -/
def summaryD (o : Option (Except PyExc ApplyResult)) : Summary :=
  (runResultD o).summary.getD default

/-! ## Concrete fixtures -/

/-- A benign environment: every external call succeeds. -/
def env0 : Env :=
  { expanduser := id, isdir := fun _ => false, chdirOk := fun _ => true,
    call := fun _ => .exit 0, checkOutput := fun _ => .output "",
    hostname := "h", timeStr := "t" }

/-- An environment in which every external process exits nonzero (so every
backend invocation reports failure). -/
def envFail : Env :=
  { expanduser := id, isdir := fun _ => false, chdirOk := fun _ => true,
    call := fun _ => .exit 1, checkOutput := fun _ => .output "",
    hostname := "h", timeStr := "t" }

/-- Two auto projects, each containing its own `SeeliePath` object with the
same canonical path `"/p"`. -/
def psShared : List SeelieProject :=
  [ { name := some "p1", auto := true,
      items := [SeelieItem.path { path := "/p", tool := none, origin := none }] },
    { name := some "p2", auto := true,
      items := [SeelieItem.path { path := "/p", tool := none, origin := none }] } ]

/-- A reference cycle: `a` references `b` and `b` references `a`. -/
def psCycle : List SeelieProject :=
  [ { name := some "a", auto := true, items := [SeelieItem.ref "b"] },
    { name := some "b", auto := true, items := [SeelieItem.ref "a"] } ]

/-- One auto project with a single path. -/
def psOnePath : List SeelieProject :=
  [ { name := some "a", auto := true,
      items := [SeelieItem.path { path := "/p", tool := none, origin := none }] } ]

/-- One auto project with no items at all. -/
def psOneEmpty : List SeelieProject :=
  [ { name := some "a", auto := true, items := [] } ]

/-- Project `a` (auto) referencing project `b` (not auto). -/
def psRefNonAuto : List SeelieProject :=
  [ { name := some "a", auto := true, items := [SeelieItem.ref "b"] },
    { name := some "b", auto := false, items := [] } ]

/-- Projects `a` (auto) and `b` (not auto), no items. -/
def psAB : List SeelieProject :=
  [ { name := some "a", auto := true, items := [] },
    { name := some "b", auto := false, items := [] } ]

/-- A project definition with two `name` children, `"a"` before `"b"`. -/
def nodeTwoNames : XmlNode :=
  { tag := "project", text := "", attrib := [],
    children :=
      [ { tag := "name", text := "a", attrib := [], children := [] },
        { tag := "name", text := "b", attrib := [], children := [] } ] }

/-! ## List utilities -/

/-- Count of `false` entries (the unvisited projects), the measure that
bounds the recursion depth of `apply_project`. -/
def countFalse : List Bool → Nat
  | [] => 0
  | b :: r => (if b then 0 else 1) + countFalse r

theorem countFalse_le_length (l : List Bool) : countFalse l ≤ l.length := by
  induction l with
  | nil => simp [countFalse]
  | cons b r ih =>
    cases b <;> simp [countFalse] <;> omega

theorem getD_set_self (l : List Bool) (i : Nat) (a d : Bool) (h : i < l.length) :
    (l.set i a).getD i d = a := by
  induction l generalizing i with
  | nil => simp at h
  | cons x xs ih =>
    cases i with
    | zero => rfl
    | succ n =>
      simp only [List.set, List.getD, List.get?]
      have := ih n (by simpa using h)
      simpa [List.getD] using this

theorem getD_set_ne (l : List Bool) (i j : Nat) (a d : Bool) (h : i ≠ j) :
    (l.set i a).getD j d = l.getD j d := by
  induction l generalizing i j with
  | nil => simp [List.set]
  | cons x xs ih =>
    cases i with
    | zero =>
      cases j with
      | zero => exact absurd rfl h
      | succ m => rfl
    | succ n =>
      cases j with
      | zero => rfl
      | succ m =>
        simp only [List.set, List.getD, List.get?]
        have := ih n m (fun hnm => h (by rw [hnm]))
        simpa [List.getD] using this

theorem getD_replicate_false (n i : Nat) :
    (List.replicate n false).getD i false = false := by
  induction n generalizing i with
  | zero => simp [List.getD]
  | succ m ih =>
    cases i with
    | zero => rfl
    | succ j => simpa [List.replicate, List.getD] using ih j

theorem getD_eq_false_of_le (l : List Bool) (i : Nat) (h : l.length ≤ i) :
    l.getD i false = false := by
  induction l generalizing i with
  | nil => simp [List.getD]
  | cons x xs ih =>
    cases i with
    | zero => simp at h
    | succ n => simpa [List.getD] using ih n (by simpa using h)

theorem countFalse_set_true (l : List Bool) (i : Nat) (h : i < l.length)
    (hf : l.getD i false = false) :
    countFalse (l.set i true) + 1 = countFalse l := by
  induction l generalizing i with
  | nil => simp at h
  | cons x xs ih =>
    cases i with
    | zero =>
      have hx : x = false := hf
      subst hx
      simp [countFalse, List.set]
      omega
    | succ n =>
      have := ih n (by simpa using h) (by simpa [List.getD] using hf)
      simp only [List.set, countFalse]
      omega

/-- Pointwise growth of the visited-projects vector. -/
def PointwiseLe (l1 l2 : List Bool) : Prop :=
  l1.length = l2.length ∧ ∀ i, l1.getD i false = true → l2.getD i false = true

theorem countFalse_anti (l1 l2 : List Bool) (h : PointwiseLe l1 l2) :
    countFalse l2 ≤ countFalse l1 := by
  obtain ⟨hlen, hmono⟩ := h
  induction l1 generalizing l2 with
  | nil =>
    cases l2 with
    | nil => exact Nat.le_refl _
    | cons y ys => simp at hlen
  | cons x xs ih =>
    cases l2 with
    | nil => simp at hlen
    | cons y ys =>
      have hxy : x = true → y = true := fun hx => hmono 0 hx
      have htail : countFalse ys ≤ countFalse xs :=
        ih ys (by simpa using hlen) (fun i hi => hmono (i + 1) (by simpa [List.getD] using hi))
      cases x with
      | false => cases y <;> simp [countFalse] <;> omega
      | true =>
        have hy := hxy rfl
        subst hy
        simp [countFalse]
        omega

/-- `l1` is an initial segment of `l2` (traversal traces and Python sets in
this development only ever grow by appending). -/
def ListPre {α : Type} (l1 l2 : List α) : Prop := ∃ t, l1 ++ t = l2

theorem ListPre.refl {α : Type} (l : List α) : ListPre l l := ⟨[], by simp⟩

theorem ListPre.trans {α : Type} {l1 l2 l3 : List α}
    (h1 : ListPre l1 l2) (h2 : ListPre l2 l3) : ListPre l1 l3 := by
  obtain ⟨t1, rfl⟩ := h1
  obtain ⟨t2, rfl⟩ := h2
  exact ⟨t1 ++ t2, by simp⟩

theorem ListPre.append {α : Type} (l t : List α) : ListPre l (l ++ t) := ⟨t, rfl⟩

theorem ListPre.mem {α : Type} {l1 l2 : List α} {x : α}
    (h : ListPre l1 l2) (hx : x ∈ l1) : x ∈ l2 := by
  obtain ⟨t, rfl⟩ := h
  exact List.mem_append_left _ hx

theorem listPre_setAddStr (l : List String) (s : String) : ListPre l (setAddStr l s) := by
  unfold setAddStr
  split
  · exact ListPre.refl l
  · exact ListPre.append l [s]

theorem mem_setAddStr (l : List String) (s : String) : s ∈ setAddStr l s := by
  unfold setAddStr
  split
  · next h =>
    obtain ⟨x, hx, hbeq⟩ := List.any_eq_true.mp h
    exact (beq_iff_eq.mp hbeq) ▸ hx
  · simp

theorem listPre_setAddPy (l : List PyVal) (v : PyVal) : ListPre l (setAddPy l v) := by
  unfold setAddPy
  split
  · exact ListPre.refl l
  · exact ListPre.append l [v]

/-! ## State growth along the traversal -/

/-- Growth of the traversal state along any step of the engine: the set-like
fields only grow by appending, the visited-projects vector grows pointwise
without changing length, and the recorded error flag of a project that was
already visited at the start of the step never changes. -/
structure StateLe (s t : TravState) : Prop where
  vp : ListPre s.visitedPaths t.visitedPaths
  vjlen : s.visitedProjects.length = t.visitedProjects.length
  vj : ∀ i, s.visitedProjects.getD i false = true → t.visitedProjects.getD i false = true
  ep : ListPre s.errorPaths t.errorPaths
  ejlen : s.errorProjects.length = t.errorProjects.length
  ejstable : ∀ i, s.visitedProjects.getD i false = true →
    t.errorProjects.getD i false = s.errorProjects.getD i false
  unk : ListPre s.unknownProjects t.unknownProjects
  tr : ListPre s.visitTrace t.visitTrace

theorem stateLe_refl (s : TravState) : StateLe s s :=
  ⟨ListPre.refl _, rfl, fun _ h => h, ListPre.refl _, rfl, fun _ _ => rfl,
   ListPre.refl _, ListPre.refl _⟩

theorem stateLe_trans {a b c : TravState} (h1 : StateLe a b) (h2 : StateLe b c) :
    StateLe a c := by
  refine ⟨h1.vp.trans h2.vp, h1.vjlen.trans h2.vjlen,
    fun i hi => h2.vj i (h1.vj i hi), h1.ep.trans h2.ep, h1.ejlen.trans h2.ejlen,
    fun i hi => ?_, h1.unk.trans h2.unk, h1.tr.trans h2.tr⟩
  rw [h2.ejstable i (h1.vj i hi), h1.ejstable i hi]

theorem processItem_mono {env : Env} {mode : String} {verbose : Nat} {merge : Bool}
    {namesF : String → Option Nat}
    {visit : Nat → TravState → Option (Except PyExc (Bool × TravState))}
    {i k : Nat} {item : SeelieItem} {s : TravState} {b : Bool} {s' : TravState}
    (hv : ∀ j t b2 t', visit j t = some (.ok (b2, t')) → StateLe t t')
    (h : processItem env mode verbose merge namesF visit i k item s = some (.ok (b, s'))) :
    StateLe s s' := by
  cases item with
  | path p =>
    simp only [processItem] at h
    split at h
    · simp only [Option.some.injEq, Except.ok.injEq, Prod.mk.injEq] at h
      obtain ⟨-, rfl⟩ := h
      exact stateLe_refl s
    · split at h
      · simp at h
      · split at h
        · simp at h
        · split at h
          · simp only [Option.some.injEq, Except.ok.injEq, Prod.mk.injEq] at h
            obtain ⟨-, rfl⟩ := h
            exact ⟨ListPre.append _ _, rfl, fun _ h => h, listPre_setAddPy _ _, rfl,
              fun _ _ => rfl, ListPre.refl _, ListPre.refl _⟩
          · simp only [Option.some.injEq, Except.ok.injEq, Prod.mk.injEq] at h
            obtain ⟨-, rfl⟩ := h
            exact ⟨ListPre.append _ _, rfl, fun _ h => h, ListPre.refl _, rfl,
              fun _ _ => rfl, ListPre.refl _, ListPre.refl _⟩
  | ref n =>
    simp only [processItem] at h
    split at h
    · next j _ => exact hv j s b s' h
    · simp only [Option.some.injEq, Except.ok.injEq, Prod.mk.injEq] at h
      obtain ⟨-, rfl⟩ := h
      exact ⟨ListPre.refl _, rfl, fun _ h => h, ListPre.refl _, rfl,
        fun _ _ => rfl, listPre_setAddStr _ _, ListPre.refl _⟩

theorem processItems_mono {env : Env} {mode : String} {verbose : Nat} {merge : Bool}
    {namesF : String → Option Nat}
    {visit : Nat → TravState → Option (Except PyExc (Bool × TravState))}
    {i : Nat}
    (hv : ∀ j t b2 t', visit j t = some (.ok (b2, t')) → StateLe t t') :
    ∀ {items : List SeelieItem} {k : Nat} {acc : Bool} {s : TravState} {b : Bool}
      {s' : TravState},
      processItems env mode verbose merge namesF visit i k items acc s = some (.ok (b, s')) →
      StateLe s s' := by
  intro items
  induction items with
  | nil =>
    intro k acc s b s' h
    simp only [processItems, Option.some.injEq, Except.ok.injEq, Prod.mk.injEq] at h
    obtain ⟨-, rfl⟩ := h
    exact stateLe_refl s
  | cons item rest ih =>
    intro k acc s b s' h
    simp only [processItems] at h
    split at h
    · exact absurd h (by simp)
    · exact absurd h (by simp)
    · next err s1 hpi =>
      exact stateLe_trans (processItem_mono hv hpi) (ih h)

theorem applyProject_mono (env : Env) (ps : List SeelieProject) (mode : String)
    (verbose : Nat) (merge : Bool) :
    ∀ (fuel : Nat) {i : Nat} {s : TravState} {b : Bool} {s' : TravState},
      applyProject env ps mode verbose merge fuel i s = some (.ok (b, s')) →
      StateLe s s' := by
  intro fuel
  induction fuel with
  | zero => intro i s b s' h; simp [applyProject] at h
  | succ f ih =>
    intro i s b s' h
    simp only [applyProject] at h
    split at h
    · next hvis =>
      simp only [Option.some.injEq, Except.ok.injEq, Prod.mk.injEq] at h
      obtain ⟨-, rfl⟩ := h
      exact stateLe_refl s
    · next hvis =>
      split at h
      · exact absurd h (by simp)
      · exact absurd h (by simp)
      · next anyError s2 hpi =>
        simp only [Option.some.injEq, Except.ok.injEq, Prod.mk.injEq] at h
        obtain ⟨-, rfl⟩ := h
        have hvisF : s.visitedProjects.getD i false = false := by
          revert hvis
          cases s.visitedProjects.getD i false <;> simp
        have hs1le : StateLe s
            { s with visitedProjects := s.visitedProjects.set i true,
                     visitTrace := s.visitTrace ++ [i] } := by
          refine ⟨ListPre.refl _, ?_, ?_, ListPre.refl _, rfl, fun _ _ => rfl,
            ListPre.refl _, ListPre.append _ _⟩
          · simp [List.length_set]
          · intro j hj
            by_cases hij : i = j
            · subst hij
              rw [hvisF] at hj
              exact absurd hj (by simp)
            · show (s.visitedProjects.set i true).getD j false = true
              rw [getD_set_ne _ _ _ _ _ hij]
              exact hj
        have h12 : StateLe
            { s with visitedProjects := s.visitedProjects.set i true,
                     visitTrace := s.visitTrace ++ [i] } s2 :=
          processItems_mono (fun j t b2 t' ht => ih ht) hpi
        have hs2 : StateLe s s2 := stateLe_trans hs1le h12
        refine ⟨hs2.vp, hs2.vjlen, hs2.vj, hs2.ep, ?_, ?_, hs2.unk, hs2.tr⟩
        · simpa [List.length_set] using hs2.ejlen
        · intro j hj
          have hij : i ≠ j := by
            intro hij
            subst hij
            rw [hvisF] at hj
            exact absurd hj (by simp)
          show (s2.errorProjects.set i anyError).getD j false = s.errorProjects.getD j false
          rw [getD_set_ne _ _ _ _ _ hij]
          exact hs2.ejstable j hj

/-! ## Termination: the fuel chosen by `Seelie.applyRun` never runs out -/

theorem itemsOf_of_le (ps : List SeelieProject) (i : Nat) (h : ps.length ≤ i) :
    itemsOf ps i = [] := by
  unfold itemsOf
  have : ps.getD i default = default := by
    induction ps generalizing i with
    | nil => simp [List.getD]
    | cons p rest ih =>
      cases i with
      | zero => simp at h
      | succ n => simpa [List.getD] using ih n (by simpa using h)
  rw [this]
  rfl

theorem processItem_path_ne_none {env : Env} {mode : String} {verbose : Nat}
    {merge : Bool} {namesF : String → Option Nat}
    {visit : Nat → TravState → Option (Except PyExc (Bool × TravState))}
    {i k : Nat} {p : SeeliePath} {s : TravState} :
    processItem env mode verbose merge namesF visit i k (SeelieItem.path p) s ≠ none := by
  simp only [processItem]
  split
  · simp
  · split
    · simp
    · split
      · simp
      · split <;> simp

theorem processItems_not_none {env : Env} {mode : String} {verbose : Nat} {merge : Bool}
    {namesF : String → Option Nat}
    {visit : Nat → TravState → Option (Except PyExc (Bool × TravState))}
    {i : Nat} {N fuelv : Nat}
    (hv_mono : ∀ j t b2 t', visit j t = some (.ok (b2, t')) → StateLe t t')
    (hv_none : ∀ j t, t.visitedProjects.length = N →
      countFalse t.visitedProjects < fuelv → visit j t ≠ none) :
    ∀ {items : List SeelieItem} {k : Nat} {acc : Bool} {s : TravState},
      s.visitedProjects.length = N → countFalse s.visitedProjects < fuelv →
      processItems env mode verbose merge namesF visit i k items acc s ≠ none := by
  intro items
  induction items with
  | nil => intro k acc s _ _; simp [processItems]
  | cons item rest ih =>
    intro k acc s hlen hcf
    have hne : processItem env mode verbose merge namesF visit i k item s ≠ none := by
      cases item with
      | path p => exact processItem_path_ne_none
      | ref n =>
        simp only [processItem]
        split
        · next j _ => exact hv_none j s hlen hcf
        · simp
    simp only [processItems]
    split
    · next hnone => exact absurd hnone hne
    · simp
    · next err s1 hpi =>
      have hle := processItem_mono hv_mono hpi
      refine ih ?_ ?_
      · rw [← hle.vjlen]; exact hlen
      · exact lt_of_le_of_lt (countFalse_anti _ _ ⟨hle.vjlen, hle.vj⟩) hcf

theorem applyProject_not_none (env : Env) (ps : List SeelieProject) (mode : String)
    (verbose : Nat) (merge : Bool) :
    ∀ (fuel i : Nat) (s : TravState),
      s.visitedProjects.length = ps.length →
      countFalse s.visitedProjects < fuel →
      applyProject env ps mode verbose merge fuel i s ≠ none := by
  intro fuel
  induction fuel with
  | zero => intro i s _ hcf; exact absurd hcf (Nat.not_lt_zero _)
  | succ f ih =>
    intro i s hlen hcf
    simp only [applyProject]
    split
    · simp
    · next hvis =>
      by_cases hi : i < s.visitedProjects.length
      · have hvisF : s.visitedProjects.getD i false = false := by
          revert hvis
          cases s.visitedProjects.getD i false <;> simp
        have hdec := countFalse_set_true s.visitedProjects i hi hvisF
        have hlen1 : (s.visitedProjects.set i true).length = ps.length := by
          rw [List.length_set]; exact hlen
        have hcf1 : countFalse (s.visitedProjects.set i true) < f := by omega
        split
        · next hnone =>
          exact absurd hnone
            (processItems_not_none
              (fun j t b2 t' ht => applyProject_mono env ps mode verbose merge f ht)
              (fun j t hl hc => ih j t hl hc) hlen1 hcf1)
        · simp
        · simp
      · have hfin : ps.length ≤ i := by omega
        rw [itemsOf_of_le ps i hfin]
        simp [processItems]

theorem runProjects_ok_mono (env : Env) (ps : List SeelieProject) (mode : String)
    (verbose : Nat) (merge : Bool) (fuel : Nat) :
    ∀ {req : List Nat} {s s' : TravState},
      runProjects env ps mode verbose merge fuel req s = some (.ok s') → StateLe s s' := by
  intro req
  induction req with
  | nil =>
    intro s s' h
    simp only [runProjects, Option.some.injEq, Except.ok.injEq] at h
    subst h
    exact stateLe_refl _
  | cons i rest ih =>
    intro s s' h
    simp only [runProjects] at h
    split at h
    · exact absurd h (by simp)
    · exact absurd h (by simp)
    · next b s1 hap =>
      exact stateLe_trans (applyProject_mono env ps mode verbose merge fuel hap) (ih h)

theorem runProjects_not_none (env : Env) (ps : List SeelieProject) (mode : String)
    (verbose : Nat) (merge : Bool) :
    ∀ (req : List Nat) (s : TravState), s.visitedProjects.length = ps.length →
      runProjects env ps mode verbose merge (ps.length + 1) req s ≠ none := by
  intro req
  induction req with
  | nil => intro s _; simp [runProjects]
  | cons i rest ih =>
    intro s hlen
    have hcf : countFalse s.visitedProjects < ps.length + 1 := by
      have := countFalse_le_length s.visitedProjects
      omega
    simp only [runProjects]
    split
    · next hnone =>
      exact absurd hnone (applyProject_not_none env ps mode verbose merge _ i s hlen hcf)
    · simp
    · next b s1 hap =>
      have hle := applyProject_mono env ps mode verbose merge _ hap
      exact ih s1 (by rw [← hle.vjlen]; exact hlen)

theorem applyRun_ne_none (env : Env) (ps : List SeelieProject) (mode : String)
    (nms? : Option (List String)) (verbose : Nat) (merge : Bool) :
    Seelie.applyRun env ps mode nms? verbose merge ≠ none := by
  simp only [Seelie.applyRun]
  split
  · simp
  · next reqIdx unknown0 _ =>
    split
    · next hnone =>
      exact absurd hnone
        (runProjects_not_none env ps mode verbose merge reqIdx _ (by simp))
    · simp
    · simp

/-! ## At-most-once execution of the per-project body -/

theorem buildNamesAux_lt :
    ∀ (k : Nat) (l : List SeelieProject) (q : String) (j : Nat),
      buildNamesAux k l q = some j → j < k + l.length := by
  intro k l
  induction l generalizing k with
  | nil => intro q j h; simp [buildNamesAux] at h
  | cons p rest ih =>
    intro q j h
    simp only [buildNamesAux] at h
    split at h
    · next j' hj' =>
      cases h
      have := ih (k + 1) q j hj'
      simp only [List.length_cons]
      omega
    · split at h
      · split at h
        · cases h
          simp only [List.length_cons]
          omega
        · exact absurd h (by simp)
      · exact absurd h (by simp)

theorem buildNames_lt {ps : List SeelieProject} {q : String} {j : Nat}
    (h : buildNames ps q = some j) : j < ps.length := by
  have := buildNamesAux_lt 0 ps q j h
  omega

/-- Invariant of a traversal state: the body-entry trace has no duplicates,
and every traced project is marked visited. -/
def TraceInv (s : TravState) : Prop :=
  s.visitTrace.Nodup ∧ ∀ i ∈ s.visitTrace, s.visitedProjects.getD i false = true

theorem processItem_trace {env : Env} {mode : String} {verbose : Nat} {merge : Bool}
    {namesF : String → Option Nat}
    {visit : Nat → TravState → Option (Except PyExc (Bool × TravState))}
    {i k : Nat} {item : SeelieItem} {s : TravState} {b : Bool} {s' : TravState} {N : Nat}
    (hname : ∀ n j, namesF n = some j → j < N)
    (hv : ∀ j t b2 t', j < N → t.visitedProjects.length = N → TraceInv t →
      visit j t = some (.ok (b2, t')) → TraceInv t')
    (hlen : s.visitedProjects.length = N) (hinv : TraceInv s)
    (h : processItem env mode verbose merge namesF visit i k item s = some (.ok (b, s'))) :
    TraceInv s' := by
  cases item with
  | path p =>
    simp only [processItem] at h
    split at h
    · simp only [Option.some.injEq, Except.ok.injEq, Prod.mk.injEq] at h
      obtain ⟨-, rfl⟩ := h
      exact hinv
    · split at h
      · simp at h
      · split at h
        · simp at h
        · split at h <;>
          · simp only [Option.some.injEq, Except.ok.injEq, Prod.mk.injEq] at h
            obtain ⟨-, rfl⟩ := h
            exact hinv
  | ref n =>
    simp only [processItem] at h
    split at h
    · next j hj => exact hv j s b s' (hname n j hj) hlen hinv h
    · simp only [Option.some.injEq, Except.ok.injEq, Prod.mk.injEq] at h
      obtain ⟨-, rfl⟩ := h
      exact hinv

theorem processItems_trace {env : Env} {mode : String} {verbose : Nat} {merge : Bool}
    {namesF : String → Option Nat}
    {visit : Nat → TravState → Option (Except PyExc (Bool × TravState))}
    {i : Nat} {N : Nat}
    (hname : ∀ n j, namesF n = some j → j < N)
    (hv_mono : ∀ j t b2 t', visit j t = some (.ok (b2, t')) → StateLe t t')
    (hv : ∀ j t b2 t', j < N → t.visitedProjects.length = N → TraceInv t →
      visit j t = some (.ok (b2, t')) → TraceInv t') :
    ∀ {items : List SeelieItem} {k : Nat} {acc : Bool} {s : TravState} {b : Bool}
      {s' : TravState},
      s.visitedProjects.length = N → TraceInv s →
      processItems env mode verbose merge namesF visit i k items acc s = some (.ok (b, s')) →
      TraceInv s' := by
  intro items
  induction items with
  | nil =>
    intro k acc s b s' _ hinv h
    simp only [processItems, Option.some.injEq, Except.ok.injEq, Prod.mk.injEq] at h
    obtain ⟨-, rfl⟩ := h
    exact hinv
  | cons item rest ih =>
    intro k acc s b s' hlen hinv h
    simp only [processItems] at h
    split at h
    · exact absurd h (by simp)
    · exact absurd h (by simp)
    · next err s1 hpi =>
      have hinv1 := processItem_trace hname hv hlen hinv hpi
      have hle := processItem_mono hv_mono hpi
      exact ih (by rw [← hle.vjlen]; exact hlen) hinv1 h

theorem applyProject_trace (env : Env) (ps : List SeelieProject) (mode : String)
    (verbose : Nat) (merge : Bool) :
    ∀ (fuel : Nat) {i : Nat} {s : TravState} {b : Bool} {s' : TravState},
      i < ps.length → s.visitedProjects.length = ps.length → TraceInv s →
      applyProject env ps mode verbose merge fuel i s = some (.ok (b, s')) →
      TraceInv s' := by
  intro fuel
  induction fuel with
  | zero => intro i s b s' _ _ _ h; simp [applyProject] at h
  | succ f ih =>
    intro i s b s' hi hlen hinv h
    simp only [applyProject] at h
    split at h
    · simp only [Option.some.injEq, Except.ok.injEq, Prod.mk.injEq] at h
      obtain ⟨-, rfl⟩ := h
      exact hinv
    · next hvis =>
      split at h
      · exact absurd h (by simp)
      · exact absurd h (by simp)
      · next anyError s2 hpi =>
        simp only [Option.some.injEq, Except.ok.injEq, Prod.mk.injEq] at h
        obtain ⟨-, rfl⟩ := h
        have hvisF : s.visitedProjects.getD i false = false := by
          revert hvis
          cases s.visitedProjects.getD i false <;> simp
        have hi_len : i < s.visitedProjects.length := by omega
        have hinv1 : TraceInv
            { s with visitedProjects := s.visitedProjects.set i true,
                     visitTrace := s.visitTrace ++ [i] } := by
          constructor
          · rw [List.nodup_append]
            refine ⟨hinv.1, List.nodup_singleton i, ?_⟩
            intro a ha hai
            have : a = i := by simpa using hai
            subst this
            have := hinv.2 a ha
            rw [hvisF] at this
            exact absurd this (by simp)
          · intro j hj
            rcases List.mem_append.mp hj with hj | hj
            · by_cases hij : i = j
              · subst hij
                show (s.visitedProjects.set i true).getD i false = true
                exact getD_set_self _ _ _ _ hi_len
              · show (s.visitedProjects.set i true).getD j false = true
                rw [getD_set_ne _ _ _ _ _ hij]
                exact hinv.2 j hj
            · have hji : j = i := by simpa using hj
              rw [hji]
              show (s.visitedProjects.set i true).getD i false = true
              exact getD_set_self _ _ _ _ hi_len
        have hlen1 :
            ({ s with visitedProjects := s.visitedProjects.set i true,
                      visitTrace := s.visitTrace ++ [i] } :
              TravState).visitedProjects.length = ps.length := by
          show (s.visitedProjects.set i true).length = ps.length
          rw [List.length_set]
          exact hlen
        have hinv2 : TraceInv s2 :=
          processItems_trace (fun n j hnj => buildNames_lt hnj)
            (fun j t b2 t' ht => applyProject_mono env ps mode verbose merge f ht)
            (fun j t b2 t' hj hl hti ht => ih hj hl hti ht)
            hlen1 hinv1 hpi
        exact hinv2

theorem runProjects_trace (env : Env) (ps : List SeelieProject) (mode : String)
    (verbose : Nat) (merge : Bool) (fuel : Nat) :
    ∀ {req : List Nat} {s s' : TravState},
      (∀ i ∈ req, i < ps.length) → s.visitedProjects.length = ps.length → TraceInv s →
      runProjects env ps mode verbose merge fuel req s = some (.ok s') → TraceInv s' := by
  intro req
  induction req with
  | nil =>
    intro s s' _ _ hinv h
    simp only [runProjects, Option.some.injEq, Except.ok.injEq] at h
    subst h
    exact hinv
  | cons i rest ih =>
    intro s s' hreq hlen hinv h
    simp only [runProjects] at h
    split at h
    · exact absurd h (by simp)
    · exact absurd h (by simp)
    · next b s1 hap =>
      have hinv1 := applyProject_trace env ps mode verbose merge fuel
        (hreq i (by simp)) hlen hinv hap
      have hle := applyProject_mono env ps mode verbose merge fuel hap
      exact ih (fun j hj => hreq j (by simp [hj])) (by rw [← hle.vjlen]; exact hlen) hinv1 h

theorem resolveAuto_lt {namesF : String → Option Nat} {N : Nat}
    (hname : ∀ n j, namesF n = some j → j < N) :
    ∀ {l : List (Option String)} {idxs : List Nat},
      resolveAuto namesF l = .ok idxs → ∀ i ∈ idxs, i < N := by
  intro l
  induction l with
  | nil =>
    intro idxs h i hi
    simp only [resolveAuto, Except.ok.injEq] at h
    subst h
    simp at hi
  | cons op rest ih =>
    intro idxs h i hi
    cases op with
    | none => simp [resolveAuto] at h
    | some n =>
      simp only [resolveAuto] at h
      split at h
      · simp at h
      · next j hj =>
        split at h
        · next l' hl' =>
          cases h
          rcases List.mem_cons.mp hi with rfl | hi'
          · exact hname n i hj
          · exact ih hl' i hi'
        · simp at h

/-- Decomposition of a completed `Seelie.applyRun`: the selector resolution
succeeded, the traversal completed, and the result record is assembled from
them. -/
theorem applyRun_ok_elim {env : Env} {ps : List SeelieProject} {mode : String}
    {nms? : Option (List String)} {verbose : Nat} {merge : Bool} {r : ApplyResult}
    (h : Seelie.applyRun env ps mode nms? verbose merge = some (.ok r)) :
    ∃ (reqIdx : List Nat) (unknown0 : List String) (s : TravState),
      (match nms? with
        | none => (resolveAuto (buildNames ps) (autoNames ps)).map (fun l => (l, []))
        | some ns =>
          Except.ok (ns.filterMap (buildNames ps),
            ns.foldl (fun acc n => if ((buildNames ps) n).isSome then acc
              else setAddStr acc n) [])) = Except.ok (reqIdx, unknown0) ∧
      runProjects env ps mode verbose merge (ps.length + 1) reqIdx
        { visitedPaths := [], visitedProjects := List.replicate ps.length false,
          errorPaths := [], errorProjects := List.replicate ps.length false,
          unknownProjects := unknown0, visitTrace := [] } = some (.ok s) ∧
      r = { state := s, requested := reqIdx,
            summary := if verbose ≠ 0 then some (mkSummary ps nms? reqIdx s)
              else none } := by
  simp only [Seelie.applyRun] at h
  split at h
  · simp at h
  · next reqIdx unknown0 heq =>
    split at h
    · simp at h
    · simp at h
    · next s hrun =>
      simp only [Option.some.injEq, Except.ok.injEq] at h
      exact ⟨reqIdx, unknown0, s, heq, hrun, h.symm⟩

/-- The indices a completed run requested are valid project indices. -/
theorem applyRun_req_lt {ps : List SeelieProject}
    {nms? : Option (List String)}
    {reqIdx : List Nat} {unknown0 : List String}
    (hres : (match nms? with
        | none => (resolveAuto (buildNames ps) (autoNames ps)).map (fun l => (l, []))
        | some ns =>
          Except.ok (ns.filterMap (buildNames ps),
            ns.foldl (fun acc n => if ((buildNames ps) n).isSome then acc
              else setAddStr acc n) [])) = Except.ok (reqIdx, unknown0)) :
    ∀ i ∈ reqIdx, i < ps.length := by
  cases nms? with
  | none =>
    cases hres' : resolveAuto (buildNames ps) (autoNames ps) with
    | error e => rw [hres'] at hres; simp [Except.map] at hres
    | ok idxs =>
      rw [hres'] at hres
      simp only [Except.map, Except.ok.injEq, Prod.mk.injEq] at hres
      obtain ⟨rfl, -⟩ := hres
      exact resolveAuto_lt (fun n j hnj => buildNames_lt hnj) hres'
  | some ns =>
    simp only [Except.ok.injEq, Prod.mk.injEq] at hres
    obtain ⟨rfl, -⟩ := hres
    intro i hi
    obtain ⟨n, -, hn⟩ := List.mem_filterMap.mp hi
    exact buildNames_lt hn

/-- C2: for every project graph, including graphs whose reference edges form
cycles or diamonds, `apply` terminates (the bounded recursion of the
embedding never exhausts the fuel `Seelie.applyRun` supplies), the body of
the per-project visit (marking visited, iterating items) executes at most
once per project index per run (the body-entry trace of a completed run has
no duplicate indices), and a repeat visit immediately returns the previously
recorded error state with the traversal state unchanged, without iterating
the items again. -/
theorem apply_terminates_and_memoizes (env : Env) (ps : List SeelieProject)
    (mode : String) (nms? : Option (List String)) (verbose : Nat) (merge : Bool) :
    Seelie.applyRun env ps mode nms? verbose merge ≠ none ∧
    (∀ r, Seelie.applyRun env ps mode nms? verbose merge = some (.ok r) →
      r.state.visitTrace.Nodup) ∧
    (∀ (fuel i : Nat) (s : TravState), s.visitedProjects.getD i false = true →
      applyProject env ps mode verbose merge (fuel + 1) i s =
        some (.ok (s.errorProjects.getD i false, s))) := by
  refine ⟨applyRun_ne_none env ps mode nms? verbose merge, ?_, ?_⟩
  · intro r h
    obtain ⟨reqIdx, unknown0, s, hres, hrun, rfl⟩ := applyRun_ok_elim h
    have hreq := applyRun_req_lt hres
    have hTI : TraceInv s :=
      runProjects_trace env ps mode verbose merge _ hreq (by simp)
        ⟨by simp, by simp⟩ hrun
    exact hTI.1
  · intro fuel i s hvis
    simp only [applyProject, if_pos hvis]

/-- A state whose only project is already visited, with no recorded error. -/
def sVisitedOne : TravState :=
  { visitedPaths := [], visitedProjects := [true], errorPaths := [],
    errorProjects := [false], unknownProjects := [], visitTrace := [0] }

theorem apply_terminates_and_memoizes_witness :
    Seelie.applyRun env0 psCycle "update" none 0 false ≠ none ∧
    (runResultD (Seelie.applyRun env0 psCycle "update" none 0 false)).state.visitTrace.Nodup ∧
    applyProject env0 psCycle "update" 0 false (0 + 1) 0 sVisitedOne =
      some (.ok (sVisitedOne.errorProjects.getD 0 false, sVisitedOne)) := by
  refine ⟨(apply_terminates_and_memoizes env0 psCycle "update" none 0 false).1, ?_, ?_⟩
  · exact (apply_terminates_and_memoizes env0 psCycle "update" none 0 false).2.1
      (runResultD (Seelie.applyRun env0 psCycle "update" none 0 false)) rfl
  · exact (apply_terminates_and_memoizes env0 psCycle "update" none 0 false).2.2
      0 0 sVisitedOne (by decide)

/-- C1 (evaluation at the failing input): with two auto projects each
holding their own Path item for `"/p"` and a backend whose process exits
nonzero, the backend-dispatch section runs exactly once for `"/p"`
(`visited_paths` deduplicates), the failure is recorded (as the `SeeliePath`
object of the first project), yet the second project records *no* error:
the membership test `item.path in error_paths` compares the path string with
the stored `SeeliePath` object and is always false, so the recorded failure
outcome is not observed by the second project. -/
theorem shared_path_outcome_lost_eval :
    isOkRun (Seelie.applyRun envFail psShared "update" none 0 false) = true ∧
    (runStateD (Seelie.applyRun envFail psShared "update" none 0 false)).visitedPaths =
      ["/p"] ∧
    (runStateD (Seelie.applyRun envFail psShared "update" none 0 false)).errorPaths =
      [PyVal.pobj 0 0 "/p"] ∧
    (runStateD (Seelie.applyRun envFail psShared "update" none 0 false)).errorProjects =
      [true, false] :=
  ⟨by decide, by decide, by decide, by decide⟩

/-- C3 (counterexample): a run whose single path fails produces no summary
at verbosity 0 (the whole reporting block is under `if(verbose):`), and at
verbosity 1 with explicit selectors the failing-projects list of the summary
is empty even though the requested project did end in error (line 259 tests
`n in self.projects`, a string against project objects). -/
theorem summary_verbosity_cex :
    (runResultD (Seelie.applyRun envFail psOnePath "update" (some ["a"]) 0 false)).summary =
      none ∧
    (runStateD (Seelie.applyRun envFail psOnePath "update" (some ["a"]) 0 false)).errorPaths ≠
      [] ∧
    (summaryD (Seelie.applyRun envFail psOnePath "update" (some ["a"]) 1 false)).errProjects =
      [] ∧
    (runStateD (Seelie.applyRun envFail psOnePath "update" (some ["a"]) 1 false)).errorProjects =
      [true] :=
  ⟨by decide, by decide, by decide, by decide⟩

/-- C4 (counterexample): in a project definition with `name` children `"a"`
then `"b"`, the stored display name is `"b"`, not the first occurrence
`"a"`. -/
theorem duplicate_name_cex :
    (SeelieProject.ofXml env0 nodeTwoNames).name ≠ some "a" ∧
    (SeelieProject.ofXml env0 nodeTwoNames).name = some "b" :=
  ⟨by decide, by decide⟩

/-- C5 (counterexample): applying an unsupported mode to a project with no
items completes normally — no error is raised, the run is a silent no-op. -/
theorem invalid_mode_noop_cex :
    isOkRun (Seelie.applyRun env0 psOneEmpty "bogus" none 0 false) = true := by decide

/-- C6 (counterexample): with `a` (auto) referencing `b` (auto=false),
calling apply with null selectors visits both projects — the body of
project 1, whose auto flag is false, is executed as well. -/
theorem null_selectors_cex :
    (runStateD (Seelie.applyRun env0 psRefNonAuto "update" none 0 false)).visitTrace =
      [0, 1] ∧
    (psRefNonAuto.getD 1 default).auto = false :=
  ⟨by decide, by decide⟩

/-- C7 (counterexample): in resolve mode the backend raises
`NotImplementedError` and the exception escapes `apply` instead of being
folded into the collected error state. -/
theorem resolve_escape_cex :
    excOfRun (Seelie.applyRun env0 psOnePath "resolve" none 0 false) =
      some PyExc.notImplementedError := by decide

/-! ## C4 (amended): the last `name` child wins -/

/-- The texts of the `name` children of a project definition, in order. -/
def nameTexts (children : List XmlNode) : List String :=
  (children.filter (fun c => strLower c.tag == "name")).map (·.text)

theorem ofXml_name_fold (env : Env) :
    ∀ (children : List XmlNode) (accN : Option String) (accI : List SeelieItem),
      (children.foldl
        (fun (st : Option String × List SeelieItem) child =>
          if strLower child.tag = "name" then
            (some child.text, st.2)
          else if strLower child.tag = "path" then
            (st.1, st.2 ++ [SeelieItem.path (SeeliePath.init env child.text
              (attribGet child.attrib "tool") (attribGet child.attrib "origin"))])
          else if strLower child.tag = "reference" then
            (st.1, st.2 ++ [SeelieItem.ref child.text])
          else st)
        (accN, accI)).1 = (lastOpt (nameTexts children)).elim accN some := by
  intro children
  induction children with
  | nil => intro accN accI; rfl
  | cons c rest ih =>
    intro accN accI
    by_cases hc : strLower c.tag = "name"
    · simp only [List.foldl_cons, if_pos hc]
      rw [ih]
      have hn : nameTexts (c :: rest) = c.text :: nameTexts rest := by
        simp [nameTexts, List.filter_cons, hc]
      rw [hn, lastOpt_cons]
      cases lastOpt (nameTexts rest) <;> rfl
    · have hn : nameTexts (c :: rest) = nameTexts rest := by
        simp [nameTexts, List.filter_cons, hc]
      by_cases hp : strLower c.tag = "path"
      · simp only [List.foldl_cons, if_neg hc, if_pos hp]
        rw [ih, hn]
      · by_cases hr : strLower c.tag = "reference"
        · simp only [List.foldl_cons, if_neg hc, if_neg hp, if_pos hr]
          rw [ih, hn]
        · simp only [List.foldl_cons, if_neg hc, if_neg hp, if_neg hr]
          rw [ih, hn]

/-- C4 (amended): for every project definition, the stored display name is
the text of the **last** `name` child (no name children ⇒ no display name);
earlier occurrences only produce a non-fatal warning.  The claim's "first
occurrence wins" is refuted by the counterexample above. -/
theorem duplicate_name_last_wins (env : Env) (node : XmlNode) :
    (SeelieProject.ofXml env node).name = lastOpt (nameTexts node.children) := by
  show (node.children.foldl _ ((none : Option String), ([] : List SeelieItem))).1 = _
  rw [ofXml_name_fold env node.children none []]
  cases lastOpt (nameTexts node.children) <;> rfl

/-! ## C5 (amended): invalid mode raises only when a path is dispatched -/

theorem dispatchSync_invalid {env : Env} {mode : String} {tool : SyncTool}
    {path : String} {origin : Option String} {merge : Bool} {vb : Bool}
    (h1 : mode ≠ "update") (h2 : mode ≠ "push") (h3 : mode ≠ "resolve") :
    dispatchSync env mode tool path origin merge vb = .error .valueError := by
  simp [dispatchSync, h1, h2, h3]

theorem processItem_invalid_keeps {env : Env} {mode : String} {verbose : Nat}
    {merge : Bool} {namesF : String → Option Nat}
    {visit : Nat → TravState → Option (Except PyExc (Bool × TravState))}
    {i k : Nat} {item : SeelieItem} {s : TravState} {b : Bool} {s' : TravState}
    (h1 : mode ≠ "update") (h2 : mode ≠ "push") (h3 : mode ≠ "resolve")
    (hv : ∀ j t b2 t', visit j t = some (.ok (b2, t')) →
      t'.visitedPaths = t.visitedPaths ∧ t'.errorPaths = t.errorPaths)
    (h : processItem env mode verbose merge namesF visit i k item s = some (.ok (b, s'))) :
    s'.visitedPaths = s.visitedPaths ∧ s'.errorPaths = s.errorPaths := by
  cases item with
  | path p =>
    simp only [processItem] at h
    split at h
    · simp only [Option.some.injEq, Except.ok.injEq, Prod.mk.injEq] at h
      obtain ⟨-, rfl⟩ := h
      exact ⟨rfl, rfl⟩
    · split at h
      · simp at h
      · next tool htool =>
        rw [dispatchSync_invalid h1 h2 h3] at h
        simp at h
  | ref n =>
    simp only [processItem] at h
    split at h
    · next j _ => exact hv j s b s' h
    · simp only [Option.some.injEq, Except.ok.injEq, Prod.mk.injEq] at h
      obtain ⟨-, rfl⟩ := h
      exact ⟨rfl, rfl⟩

theorem processItems_invalid_keeps {env : Env} {mode : String} {verbose : Nat}
    {merge : Bool} {namesF : String → Option Nat}
    {visit : Nat → TravState → Option (Except PyExc (Bool × TravState))} {i : Nat}
    (h1 : mode ≠ "update") (h2 : mode ≠ "push") (h3 : mode ≠ "resolve")
    (hv : ∀ j t b2 t', visit j t = some (.ok (b2, t')) →
      t'.visitedPaths = t.visitedPaths ∧ t'.errorPaths = t.errorPaths) :
    ∀ {items : List SeelieItem} {k : Nat} {acc : Bool} {s : TravState} {b : Bool}
      {s' : TravState},
      processItems env mode verbose merge namesF visit i k items acc s = some (.ok (b, s')) →
      s'.visitedPaths = s.visitedPaths ∧ s'.errorPaths = s.errorPaths := by
  intro items
  induction items with
  | nil =>
    intro k acc s b s' h
    simp only [processItems, Option.some.injEq, Except.ok.injEq, Prod.mk.injEq] at h
    obtain ⟨-, rfl⟩ := h
    exact ⟨rfl, rfl⟩
  | cons item rest ih =>
    intro k acc s b s' h
    simp only [processItems] at h
    split at h
    · exact absurd h (by simp)
    · exact absurd h (by simp)
    · next err s1 hpi =>
      obtain ⟨hvp1, hep1⟩ := processItem_invalid_keeps h1 h2 h3 hv hpi
      obtain ⟨hvp2, hep2⟩ := ih h
      exact ⟨hvp2.trans hvp1, hep2.trans hep1⟩

theorem applyProject_invalid_keeps (env : Env) (ps : List SeelieProject) (mode : String)
    (verbose : Nat) (merge : Bool)
    (h1 : mode ≠ "update") (h2 : mode ≠ "push") (h3 : mode ≠ "resolve") :
    ∀ (fuel : Nat) {i : Nat} {s : TravState} {b : Bool} {s' : TravState},
      applyProject env ps mode verbose merge fuel i s = some (.ok (b, s')) →
      s'.visitedPaths = s.visitedPaths ∧ s'.errorPaths = s.errorPaths := by
  intro fuel
  induction fuel with
  | zero => intro i s b s' h; simp [applyProject] at h
  | succ f ih =>
    intro i s b s' h
    simp only [applyProject] at h
    split at h
    · simp only [Option.some.injEq, Except.ok.injEq, Prod.mk.injEq] at h
      obtain ⟨-, rfl⟩ := h
      exact ⟨rfl, rfl⟩
    · split at h
      · exact absurd h (by simp)
      · exact absurd h (by simp)
      · next anyError s2 hpi =>
        simp only [Option.some.injEq, Except.ok.injEq, Prod.mk.injEq] at h
        obtain ⟨-, rfl⟩ := h
        obtain ⟨hvp, hep⟩ :=
          processItems_invalid_keeps h1 h2 h3 (fun j t b2 t' ht => ih ht) hpi
        exact ⟨hvp, hep⟩

theorem runProjects_invalid_keeps (env : Env) (ps : List SeelieProject) (mode : String)
    (verbose : Nat) (merge : Bool) (fuel : Nat)
    (h1 : mode ≠ "update") (h2 : mode ≠ "push") (h3 : mode ≠ "resolve") :
    ∀ {req : List Nat} {s s' : TravState},
      runProjects env ps mode verbose merge fuel req s = some (.ok s') →
      s'.visitedPaths = s.visitedPaths ∧ s'.errorPaths = s.errorPaths := by
  intro req
  induction req with
  | nil =>
    intro s s' h
    simp only [runProjects, Option.some.injEq, Except.ok.injEq] at h
    subst h
    exact ⟨rfl, rfl⟩
  | cons i rest ih =>
    intro s s' h
    simp only [runProjects] at h
    split at h
    · exact absurd h (by simp)
    · exact absurd h (by simp)
    · next b s1 hap =>
      obtain ⟨hvp1, hep1⟩ :=
        applyProject_invalid_keeps env ps mode verbose merge h1 h2 h3 fuel hap
      obtain ⟨hvp2, hep2⟩ := ih h
      exact ⟨hvp2.trans hvp1, hep2.trans hep1⟩

/-- C5 (amended): calling apply with a mode outside
{update, push, resolve} raises `ValueError` at the first Path item that is
actually dispatched to a backend (a fresh path with a known tool); a run
that never dispatches a Path item — no selected project, no items, or only
already-visited paths — completes normally as a silent no-op, with no path
ever visited or recorded as failing.  The unconditional fatality stated by
the claim is refuted by the counterexample above. -/
theorem invalid_mode_behavior (env : Env) (ps : List SeelieProject)
    (nms? : Option (List String)) (verbose : Nat) (merge : Bool) (mode : String)
    (h1 : mode ≠ "update") (h2 : mode ≠ "push") (h3 : mode ≠ "resolve") :
    (∀ r, Seelie.applyRun env ps mode nms? verbose merge = some (.ok r) →
      r.state.visitedPaths = [] ∧ r.state.errorPaths = []) ∧
    (∀ (visit : Nat → TravState → Option (Except PyExc (Bool × TravState)))
      (i k : Nat) (p : SeeliePath) (s : TravState) (tool : SyncTool),
      s.visitedPaths.any (· == p.path) = false →
      syncLookup p.tool = some tool →
      processItem env mode verbose merge (buildNames ps) visit i k
        (SeelieItem.path p) s = some (.error PyExc.valueError)) := by
  constructor
  · intro r h
    obtain ⟨reqIdx, unknown0, s, hres, hrun, rfl⟩ := applyRun_ok_elim h
    obtain ⟨hvp, hep⟩ :=
      runProjects_invalid_keeps env ps mode verbose merge _ h1 h2 h3 hrun
    exact ⟨hvp, hep⟩
  · intro visit i k p s tool hfresh htool
    simp only [processItem, hfresh, Bool.false_eq_true, if_false, htool,
      dispatchSync_invalid h1 h2 h3]

theorem invalid_mode_behavior_witness :
    ((runResultD (Seelie.applyRun env0 psOneEmpty "bogus" none 0 false)).state.visitedPaths =
        [] ∧
      (runResultD (Seelie.applyRun env0 psOneEmpty "bogus" none 0 false)).state.errorPaths =
        []) ∧
    processItem env0 "bogus" 0 false (buildNames psOneEmpty)
      (fun _ t => some (.ok (false, t))) 0 0
      (SeelieItem.path { path := "/p", tool := none, origin := none })
      (default : TravState) = some (.error PyExc.valueError) := by
  constructor
  · exact (invalid_mode_behavior env0 psOneEmpty none 0 false "bogus"
      (by decide) (by decide) (by decide)).1
      (runResultD (Seelie.applyRun env0 psOneEmpty "bogus" none 0 false)) rfl
  · exact (invalid_mode_behavior env0 psOneEmpty none 0 false "bogus"
      (by decide) (by decide) (by decide)).2
      (fun _ t => some (.ok (false, t))) 0 0
      { path := "/p", tool := none, origin := none } (default : TravState) .git
      (by decide) (by decide)

/-! ## C7 (amended): what escapes `apply` and what is folded -/

/-- A path item whose tool resolves to the git backend (the default). -/
def pathToolGit : SeelieItem → Bool
  | .path p => p.tool == none || p.tool == some "git"
  | .ref _ => true

theorem getD_mem_of_lt {α : Type} (l : List α) (i : Nat) (d : α) (h : i < l.length) :
    l.getD i d ∈ l := by
  induction l generalizing i with
  | nil => simp at h
  | cons x xs ih =>
    cases i with
    | zero => simp [List.getD]
    | succ n =>
      have := ih n (by simpa using h)
      simp only [List.getD] at this ⊢
      exact List.mem_cons_of_mem x this

theorem gitUpdate_isOk (env : Env) (path : String) (src : Option String)
    (merge vb : Bool) (hcall : ∀ args, env.call args ≠ .osError) :
    ∃ b, GitSync.update env path src merge vb = .ok b := by
  simp only [GitSync.update]
  split
  · exact ⟨true, rfl⟩
  · split
    · next c hc => exact ⟨decide (c ≠ 0), rfl⟩
    · next hc => exact absurd hc (hcall _)

theorem processItem_update_no_error {env : Env} {verbose : Nat} {merge : Bool}
    {namesF : String → Option Nat}
    {visit : Nat → TravState → Option (Except PyExc (Bool × TravState))}
    {i k : Nat} {item : SeelieItem} {s : TravState}
    (hcall : ∀ args, env.call args ≠ .osError)
    (hv_ne : ∀ j t e, visit j t ≠ some (.error e))
    (hitem : pathToolGit item = true) :
    ∀ e, processItem env "update" verbose merge namesF visit i k item s ≠
      some (.error e) := by
  intro e
  cases item with
  | path p =>
    have htool : syncLookup p.tool = some SyncTool.git := by
      have hor : (p.tool == none) = true ∨ (p.tool == some "git") = true := by
        have h0 := hitem
        simp only [pathToolGit, Bool.or_eq_true] at h0
        exact h0
      rcases hor with h | h
      · rw [beq_iff_eq.mp h]; rfl
      · rw [beq_iff_eq.mp h]; rfl
    simp only [processItem]
    split
    · simp
    · split
      · next hnone => rw [htool] at hnone; cases hnone
      · next tool htool' =>
        rw [htool] at htool'
        cases htool'
        have hdisp : dispatchSync env "update" SyncTool.git p.path p.origin merge
            (decide (1 < verbose)) =
            GitSync.update env p.path p.origin merge (decide (1 < verbose)) := by
          simp [dispatchSync]
        obtain ⟨b, hb⟩ :=
          gitUpdate_isOk env p.path p.origin merge (decide (1 < verbose)) hcall
        rw [hdisp, hb]
        cases b <;> simp
  | ref n =>
    simp only [processItem]
    split
    · next j _ => exact hv_ne j s e
    · simp

theorem processItems_update_no_error {env : Env} {verbose : Nat} {merge : Bool}
    {namesF : String → Option Nat}
    {visit : Nat → TravState → Option (Except PyExc (Bool × TravState))} {i : Nat}
    (hcall : ∀ args, env.call args ≠ .osError)
    (hv_ne : ∀ j t e, visit j t ≠ some (.error e)) :
    ∀ {items : List SeelieItem} {k : Nat} {acc : Bool} {s : TravState},
      (∀ item ∈ items, pathToolGit item = true) →
      ∀ e, processItems env "update" verbose merge namesF visit i k items acc s ≠
        some (.error e) := by
  intro items
  induction items with
  | nil => intro k acc s _ e; simp [processItems]
  | cons item rest ih =>
    intro k acc s hall e
    simp only [processItems]
    split
    · simp
    · next e' hpi =>
      exact absurd hpi
        (processItem_update_no_error hcall hv_ne (hall item (by simp)) e')
    · next err s1 hpi =>
      exact ih (fun it hit => hall it (by simp [hit])) e

theorem applyProject_update_no_error (env : Env) (ps : List SeelieProject)
    (verbose : Nat) (merge : Bool)
    (hcall : ∀ args, env.call args ≠ .osError)
    (htool : ∀ proj ∈ ps, ∀ item ∈ proj.items, pathToolGit item = true) :
    ∀ (fuel i : Nat) (s : TravState) (e : PyExc),
      applyProject env ps "update" verbose merge fuel i s ≠ some (.error e) := by
  intro fuel
  induction fuel with
  | zero => intro i s e; simp [applyProject]
  | succ f ih =>
    intro i s e
    have hitems : ∀ item ∈ itemsOf ps i, pathToolGit item = true := by
      intro item hitem
      by_cases hi : i < ps.length
      · exact htool (ps.getD i default) (getD_mem_of_lt ps i default hi) item hitem
      · rw [itemsOf_of_le ps i (by omega)] at hitem
        simp at hitem
    simp only [applyProject]
    split
    · simp
    · split
      · simp
      · next e' hpi =>
        exact absurd hpi
          (processItems_update_no_error hcall (fun j t e2 => ih j t e2) hitems e')
      · simp

theorem runProjects_update_no_error (env : Env) (ps : List SeelieProject)
    (verbose : Nat) (merge : Bool) (fuel : Nat)
    (hcall : ∀ args, env.call args ≠ .osError)
    (htool : ∀ proj ∈ ps, ∀ item ∈ proj.items, pathToolGit item = true) :
    ∀ (req : List Nat) (s : TravState) (e : PyExc),
      runProjects env ps "update" verbose merge fuel req s ≠ some (.error e) := by
  intro req
  induction req with
  | nil => intro s e; simp [runProjects]
  | cons i rest ih =>
    intro s e
    simp only [runProjects]
    split
    · simp
    · next e' hap =>
      exact absurd hap (applyProject_update_no_error env ps verbose merge hcall htool fuel i s e')
    · next b s1 _ => exact ih s1 e

theorem buildNamesAux_isSome_of_mem :
    ∀ (k : Nat) (l : List SeelieProject) (q : String),
      (∃ p ∈ l, p.name = some q) → (buildNamesAux k l q).isSome = true := by
  intro k l
  induction l generalizing k with
  | nil => intro q h; simp at h
  | cons p rest ih =>
    intro q h
    simp only [buildNamesAux]
    rcases h with ⟨p', hp', hname⟩
    rcases List.mem_cons.mp hp' with rfl | hmem
    · cases hrest : buildNamesAux (k + 1) rest q with
      | some j => simp
      | none => rw [hname]; simp
    · have := ih (k + 1) q ⟨p', hmem, hname⟩
      cases hrest : buildNamesAux (k + 1) rest q with
      | some j => simp
      | none => rw [hrest] at this; simp at this

theorem resolveAuto_isOk (ps : List SeelieProject) :
    ∀ (l : List (Option String)),
      (∀ op ∈ l, ∃ q, op = some q ∧ (buildNames ps q).isSome = true) →
      ∃ idxs, resolveAuto (buildNames ps) l = .ok idxs := by
  intro l
  induction l with
  | nil => intro _; exact ⟨[], rfl⟩
  | cons op rest ih =>
    intro h
    obtain ⟨q, rfl, hq⟩ := h op (by simp)
    obtain ⟨idxs, hidxs⟩ := ih (fun op' hop' => h op' (by simp [hop']))
    simp only [resolveAuto]
    cases hn : buildNames ps q with
    | none => rw [hn] at hq; simp at hq
    | some j =>
      rw [hidxs]
      exact ⟨j :: idxs, rfl⟩

/-- C7 (amended): per-path failures reported by a backend as a boolean
result — including failures to reach the path, which the git backend catches
and records — are folded into the collected error state and an update run
over default/git-tooled items completes without any exception; but a
backend *exception* does escape `apply`: an unknown tool identifier raises
`KeyError` at the lookup `self.sync[item.tool]`, and resolve mode raises
`NotImplementedError` from both backends (see the counterexample above).
Only these exceptions, configuration errors and invalid-mode errors are
fatal. -/
theorem failure_folding_and_escape (env : Env) (ps : List SeelieProject)
    (verbose : Nat) (merge : Bool) :
    (∀ (mode : String) (namesF : String → Option Nat)
      (visit : Nat → TravState → Option (Except PyExc (Bool × TravState)))
      (i k : Nat) (p : SeeliePath) (s : TravState),
      s.visitedPaths.any (· == p.path) = false →
      syncLookup p.tool = none →
      processItem env mode verbose merge namesF visit i k (SeelieItem.path p) s =
        some (.error PyExc.keyError)) ∧
    (∀ (namesF : String → Option Nat)
      (visit : Nat → TravState → Option (Except PyExc (Bool × TravState)))
      (i k : Nat) (p : SeeliePath) (tool : SyncTool) (s : TravState),
      s.visitedPaths.any (· == p.path) = false →
      syncLookup p.tool = some tool →
      processItem env "resolve" verbose merge namesF visit i k (SeelieItem.path p) s =
        some (.error PyExc.notImplementedError)) ∧
    (∀ (nms? : Option (List String)),
      (∀ args, env.call args ≠ .osError) →
      (∀ proj ∈ ps, ∀ item ∈ proj.items, pathToolGit item = true) →
      (∀ proj ∈ ps, proj.auto = true → proj.name.isSome = true) →
      isOkRun (Seelie.applyRun env ps "update" nms? verbose merge) = true) := by
  refine ⟨?_, ?_, ?_⟩
  · intro mode namesF visit i k p s hfresh htool
    simp only [processItem, hfresh, Bool.false_eq_true, if_false, htool]
  · intro namesF visit i k p tool s hfresh htool
    have hdisp : dispatchSync env "resolve" tool p.path p.origin merge
        (decide (1 < verbose)) = .error .notImplementedError := by
      cases tool <;> simp [dispatchSync, GitSync.resolve, RSync.resolve]
    simp only [processItem, hfresh, Bool.false_eq_true, if_false, htool, hdisp]
  · intro nms? hcall htool hnamed
    have hrunok : ∀ (req : List Nat) (unknown0 : List String),
        ∃ s, runProjects env ps "update" verbose merge (ps.length + 1) req
          { visitedPaths := [], visitedProjects := List.replicate ps.length false,
            errorPaths := [], errorProjects := List.replicate ps.length false,
            unknownProjects := unknown0, visitTrace := [] } = some (.ok s) := by
      intro req unknown0
      cases hrun : runProjects env ps "update" verbose merge (ps.length + 1) req
          { visitedPaths := [], visitedProjects := List.replicate ps.length false,
            errorPaths := [], errorProjects := List.replicate ps.length false,
            unknownProjects := unknown0, visitTrace := [] } with
      | none =>
        exact absurd hrun
          (runProjects_not_none env ps "update" verbose merge req _ (by simp))
      | some r =>
        cases r with
        | error e =>
          exact absurd hrun
            (runProjects_update_no_error env ps verbose merge _ hcall htool req _ e)
        | ok s => exact ⟨s, rfl⟩
    cases nms? with
    | some ns =>
      obtain ⟨s, hs⟩ := hrunok (ns.filterMap (buildNames ps))
        (ns.foldl (fun acc n => if ((buildNames ps) n).isSome then acc
          else setAddStr acc n) [])
      simp only [Seelie.applyRun]
      rw [hs]
      simp [isOkRun]
    | none =>
      have hall : ∀ op ∈ autoNames ps, ∃ q, op = some q ∧
          (buildNames ps q).isSome = true := by
        intro op hop
        simp only [autoNames, List.mem_map] at hop
        obtain ⟨proj, hproj, rfl⟩ := hop
        have hmem := List.mem_of_mem_filter hproj
        have hauto : proj.auto = true := by
          have := List.of_mem_filter hproj
          simpa using this
        have hsome := hnamed proj hmem hauto
        cases hname : proj.name with
        | none => rw [hname] at hsome; simp at hsome
        | some q =>
          exact ⟨q, rfl, buildNamesAux_isSome_of_mem 0 ps q ⟨proj, hmem, hname⟩⟩
      obtain ⟨idxs, hidxs⟩ := resolveAuto_isOk ps (autoNames ps) hall
      obtain ⟨s, hs⟩ := hrunok idxs []
      simp only [Seelie.applyRun, hidxs, Except.map]
      rw [hs]
      simp [isOkRun]

theorem failure_folding_and_escape_witness :
    processItem env0 "update" 0 false (buildNames psOnePath)
      (fun _ t => some (.ok (false, t))) 0 0
      (SeelieItem.path { path := "/p", tool := some "hg", origin := none })
      (default : TravState) = some (.error PyExc.keyError) ∧
    processItem env0 "resolve" 0 false (buildNames psOnePath)
      (fun _ t => some (.ok (false, t))) 0 0
      (SeelieItem.path { path := "/p", tool := none, origin := none })
      (default : TravState) = some (.error PyExc.notImplementedError) ∧
    isOkRun (Seelie.applyRun env0 psOnePath "update" none 0 false) = true := by
  refine ⟨?_, ?_, ?_⟩
  · exact (failure_folding_and_escape env0 psOnePath 0 false).1 "update"
      (buildNames psOnePath) (fun _ t => some (.ok (false, t))) 0 0
      { path := "/p", tool := some "hg", origin := none } (default : TravState)
      (by decide) (by decide)
  · exact (failure_folding_and_escape env0 psOnePath 0 false).2.1
      (buildNames psOnePath) (fun _ t => some (.ok (false, t))) 0 0
      { path := "/p", tool := none, origin := none } SyncTool.git (default : TravState)
      (by decide) (by decide)
  · exact (failure_folding_and_escape env0 psOnePath 0 false).2.2 none
      (fun args => by simp [env0]) (by decide) (by decide)

/-! ## C8: unknown references mark the project as erroring -/

theorem processItems_acc_true {env : Env} {mode : String} {verbose : Nat} {merge : Bool}
    {namesF : String → Option Nat}
    {visit : Nat → TravState → Option (Except PyExc (Bool × TravState))} {i : Nat} :
    ∀ {items : List SeelieItem} {k : Nat} {s : TravState} {b : Bool} {s' : TravState},
      processItems env mode verbose merge namesF visit i k items true s =
        some (.ok (b, s')) → b = true := by
  intro items
  induction items with
  | nil =>
    intro k s b s' h
    simp only [processItems, Option.some.injEq, Except.ok.injEq, Prod.mk.injEq] at h
    exact h.1.symm
  | cons item rest ih =>
    intro k s b s' h
    simp only [processItems] at h
    split at h
    · exact absurd h (by simp)
    · exact absurd h (by simp)
    · next err s1 _ =>
      simp only [Bool.true_or] at h
      exact ih h

theorem processItems_unknown_ref {env : Env} {mode : String} {verbose : Nat}
    {merge : Bool} {namesF : String → Option Nat}
    {visit : Nat → TravState → Option (Except PyExc (Bool × TravState))}
    {i : Nat} {n : String}
    (hv_mono : ∀ j t b2 t', visit j t = some (.ok (b2, t')) → StateLe t t')
    (hn : namesF n = none) :
    ∀ {items : List SeelieItem} {k : Nat} {acc : Bool} {s : TravState} {b : Bool}
      {s' : TravState},
      SeelieItem.ref n ∈ items →
      processItems env mode verbose merge namesF visit i k items acc s =
        some (.ok (b, s')) →
      b = true ∧ n ∈ s'.unknownProjects := by
  intro items
  induction items with
  | nil => intro k acc s b s' hmem; simp at hmem
  | cons item rest ih =>
    intro k acc s b s' hmem h
    simp only [processItems] at h
    split at h
    · exact absurd h (by simp)
    · exact absurd h (by simp)
    · next err s1 hpi =>
      rcases List.mem_cons.mp hmem with heq | hmem'
      · subst heq
        simp only [processItem, hn, Option.some.injEq, Except.ok.injEq,
          Prod.mk.injEq] at hpi
        obtain ⟨rfl, hs1⟩ := hpi
        simp only [Bool.or_true] at h
        refine ⟨processItems_acc_true h, ?_⟩
        have hmem1 : n ∈ s1.unknownProjects := by
          rw [← hs1]
          exact mem_setAddStr _ _
        exact (processItems_mono hv_mono h).unk.mem hmem1
      · exact ih hmem' h

theorem applyProject_unknown_ref (env : Env) (ps : List SeelieProject) (mode : String)
    (verbose : Nat) (merge : Bool) {n : String} {fuel i : Nat}
    {s : TravState} {b : Bool} {s' : TravState}
    (hlenv : s.visitedProjects.length = ps.length)
    (hlene : s.errorProjects.length = ps.length)
    (hi : i < ps.length)
    (hfresh : s.visitedProjects.getD i false = false)
    (href : SeelieItem.ref n ∈ itemsOf ps i)
    (hn : buildNames ps n = none)
    (h : applyProject env ps mode verbose merge (fuel + 1) i s = some (.ok (b, s'))) :
    b = true ∧ n ∈ s'.unknownProjects ∧ s'.errorProjects.getD i false = true ∧
      s'.visitedProjects.getD i false = true ∧ i ∈ s'.visitTrace := by
  simp only [applyProject] at h
  rw [if_neg (by rw [hfresh]; simp)] at h
  split at h
  · exact absurd h (by simp)
  · exact absurd h (by simp)
  · next anyError s2 hpi =>
    simp only [Option.some.injEq, Except.ok.injEq, Prod.mk.injEq] at h
    obtain ⟨hb, rfl⟩ := h
    obtain ⟨hb2, hunk⟩ :=
      processItems_unknown_ref
        (fun j t b2 t' ht => applyProject_mono env ps mode verbose merge fuel ht)
        hn href hpi
    have h12 : StateLe
        { s with visitedProjects := s.visitedProjects.set i true,
                 visitTrace := s.visitTrace ++ [i] } s2 :=
      processItems_mono
        (fun j t b2 t' ht => applyProject_mono env ps mode verbose merge fuel ht) hpi
    have hvis2 : s2.visitedProjects.getD i false = true := by
      have h1 : (s.visitedProjects.set i true).getD i false = true :=
        getD_set_self _ _ _ _ (by omega)
      exact h12.vj i h1
    have hlene2 : s2.errorProjects.length = ps.length := by
      have := h12.ejlen
      simp only at this
      rw [← this]
      exact hlene
    refine ⟨by rw [← hb]; exact hb2, hunk, ?_, hvis2, ?_⟩
    · show (s2.errorProjects.set i anyError).getD i false = true
      rw [hb2]
      exact getD_set_self _ _ _ _ (by omega)
    · have : i ∈ s.visitTrace ++ [i] := by simp
      exact h12.tr.mem this

theorem runProjects_head_unknown_ref (env : Env) (ps : List SeelieProject)
    (mode : String) (verbose : Nat) (merge : Bool) {n : String} {i : Nat}
    {rest : List Nat} {s s' : TravState}
    (hlenv : s.visitedProjects.length = ps.length)
    (hlene : s.errorProjects.length = ps.length)
    (hi : i < ps.length)
    (hfresh : s.visitedProjects.getD i false = false)
    (href : SeelieItem.ref n ∈ itemsOf ps i)
    (hn : buildNames ps n = none)
    (h : runProjects env ps mode verbose merge (ps.length + 1) (i :: rest) s =
      some (.ok s')) :
    n ∈ s'.unknownProjects ∧ s'.errorProjects.getD i false = true ∧
      i ∈ s'.visitTrace := by
  simp only [runProjects] at h
  split at h
  · exact absurd h (by simp)
  · exact absurd h (by simp)
  · next b s1 hap =>
    obtain ⟨-, hunk, herr, hvis, htr⟩ :=
      applyProject_unknown_ref env ps mode verbose merge hlenv hlene hi hfresh href hn hap
    have hle := runProjects_ok_mono env ps mode verbose merge (ps.length + 1) h
    refine ⟨hle.unk.mem hunk, ?_, hle.tr.mem htr⟩
    rw [hle.ejstable i hvis]
    exact herr

/-- C8: a requested project that contains a Reference to a name absent from
the Registry is marked as erroring and the unknown name is added to the
unknown-projects set, even when all of its Path items succeed; and an
unknown selector never aborts the traversal of the other requested
projects — it is recorded as unknown while the known selectors are still
visited. -/
theorem unknown_reference_marks_error (env : Env) (ps : List SeelieProject)
    (mode : String) (verbose : Nat) (merge : Bool) (nm n : String) (i : Nat)
    (hnm : buildNames ps nm = some i)
    (href : SeelieItem.ref n ∈ itemsOf ps i)
    (hn : buildNames ps n = none)
    (hsucc : ∀ item ∈ itemsOf ps i, ∀ p, item = SeelieItem.path p →
      ∀ tool, syncLookup p.tool = some tool →
        dispatchSync env mode tool p.path p.origin merge (decide (1 < verbose)) =
          .ok false) :
    (∀ r, Seelie.applyRun env ps mode (some [nm]) verbose merge = some (.ok r) →
      n ∈ r.state.unknownProjects ∧ r.state.errorProjects.getD i false = true ∧
        i ∈ r.state.visitTrace) ∧
    (∀ u, buildNames ps u = none →
      ∀ r, Seelie.applyRun env ps mode (some [u, nm]) verbose merge = some (.ok r) →
        u ∈ r.state.unknownProjects ∧ n ∈ r.state.unknownProjects ∧
          r.state.errorProjects.getD i false = true ∧ i ∈ r.state.visitTrace) := by
  constructor
  · intro r h
    obtain ⟨reqIdx, unknown0, s, hres, hrun, rfl⟩ := applyRun_ok_elim h
    have hA : List.filterMap (buildNames ps) [nm] = [i] := by
      simp [List.filterMap_cons, hnm]
    have hB : List.foldl (fun acc q => if ((buildNames ps) q).isSome then acc
        else setAddStr acc q) [] [nm] = [] := by
      simp [hnm]
    simp only [hA, hB, Except.ok.injEq, Prod.mk.injEq] at hres
    obtain ⟨rfl, rfl⟩ := hres.symm
    obtain ⟨hunk, herr, htr⟩ :=
      runProjects_head_unknown_ref env ps mode verbose merge (by simp) (by simp)
        (buildNames_lt hnm) (getD_replicate_false _ _) href hn hrun
    exact ⟨hunk, herr, htr⟩
  · intro u hu r h
    obtain ⟨reqIdx, unknown0, s, hres, hrun, rfl⟩ := applyRun_ok_elim h
    have hA : List.filterMap (buildNames ps) [u, nm] = [i] := by
      simp [List.filterMap_cons, hu, hnm]
    have hB : List.foldl (fun acc q => if ((buildNames ps) q).isSome then acc
        else setAddStr acc q) [] [u, nm] = [u] := by
      simp [hu, hnm, setAddStr]
    simp only [hA, hB, Except.ok.injEq, Prod.mk.injEq] at hres
    obtain ⟨rfl, rfl⟩ := hres.symm
    obtain ⟨hunk, herr, htr⟩ :=
      runProjects_head_unknown_ref env ps mode verbose merge (by simp) (by simp)
        (buildNames_lt hnm) (getD_replicate_false _ _) href hn hrun
    have hle := runProjects_ok_mono env ps mode verbose merge (ps.length + 1) hrun
    refine ⟨?_, hunk, herr, htr⟩
    exact hle.unk.mem (by simp)

/-- A project with one successful path and a reference to an unknown name. -/
def psUnknownRef : List SeelieProject :=
  [ { name := some "w", auto := true,
      items := [SeelieItem.path { path := "/p", tool := none, origin := none },
                SeelieItem.ref "zzz"] } ]

theorem unknown_reference_marks_error_witness :
    "zzz" ∈ (runResultD (Seelie.applyRun env0 psUnknownRef "update" (some ["w"]) 0
      false)).state.unknownProjects ∧
    (runResultD (Seelie.applyRun env0 psUnknownRef "update" (some ["w"]) 0
      false)).state.errorProjects.getD 0 false = true ∧
    0 ∈ (runResultD (Seelie.applyRun env0 psUnknownRef "update" (some ["w"]) 0
      false)).state.visitTrace := by
  refine (unknown_reference_marks_error env0 psUnknownRef "update" 0 false "w" "zzz" 0
    (by decide) (by decide) (by decide) ?_).1
    (runResultD (Seelie.applyRun env0 psUnknownRef "update" (some ["w"]) 0 false)) rfl
  intro item hitem p hp tool htool
  have hmem : item = SeelieItem.path { path := "/p", tool := none, origin := none } ∨
      item = SeelieItem.ref "zzz" := by
    simpa [itemsOf, psUnknownRef] using hitem
  rcases hmem with rfl | rfl
  · cases hp
    have htool' : tool = SyncTool.git := by
      simpa [syncLookup] using htool.symm
    subst htool'
    rfl
  · simp at hp

/-! ## C3 (amended): the report exists only at nonzero verbosity -/

theorem strInProjects_false (n : String) (ps : List SeelieProject) :
    strInProjects n ps = false := by
  induction ps with
  | nil => rfl
  | cons p rest ih =>
    simp only [strInProjects, List.any_cons, pyStrEqProject, Bool.false_or]
    simpa [strInProjects] using ih

theorem foldl_keep {α β : Type} :
    ∀ (l : List β) (acc : α), List.foldl (fun a (_ : β) => a) acc l = acc := by
  intro l
  induction l with
  | nil => intro acc; rfl
  | cons b rest ih => intro acc; simpa using ih acc

theorem mkSummary_explicit_empty (ps : List SeelieProject) (ns : List String)
    (reqIdx : List Nat) (s : TravState) :
    (mkSummary ps (some ns) reqIdx s).errProjects = [] := by
  simp only [mkSummary, strInProjects_false, Bool.false_eq_true, if_false]
  exact foldl_keep ns []

theorem foldl_append_filter_map (p : Nat → Bool) (f : Nat → String) :
    ∀ (l : List Nat) (acc : List String),
      l.foldl (fun acc i => if p i then acc ++ [f i] else acc) acc =
        acc ++ (l.filter p).map f := by
  intro l
  induction l with
  | nil => intro acc; simp
  | cons i rest ih =>
    intro acc
    simp only [List.foldl_cons, List.filter_cons]
    by_cases hp : p i = true
    · rw [if_pos hp, if_pos hp, ih]
      simp
    · rw [if_neg hp, if_neg hp, ih]

theorem mkSummary_defaulted (ps : List SeelieProject) (reqIdx : List Nat)
    (s : TravState) :
    (mkSummary ps none reqIdx s).errProjects =
      (reqIdx.filter (fun i => s.errorProjects.getD i false)).map (projectLabel ps) := by
  have h := foldl_append_filter_map (fun i => s.errorProjects.getD i false)
    (projectLabel ps) reqIdx []
  simpa [mkSummary] using h

theorem sortStr_sorted (l : List String) : List.Sorted (· ≤ ·) (sortStr l) :=
  List.sorted_insertionSort _ l

theorem sortStr_perm (l : List String) : (sortStr l).Perm l :=
  List.perm_insertionSort _ l

/-- C3 (amended): the report of an `apply` run is produced **iff** the
verbosity level is nonzero — with verbosity 0 no summary exists at all,
since the whole reporting block sits under `if(verbose):`.  When a summary
is produced it contains the unknown names sorted, the failing path strings
sorted lexicographically (a permutation of the path attributes of the
recorded failing items), and a failing-projects list computed per the
selector shape: with defaulted (null) selectors it lists, in request
order, the display label (name, or the positional `seelie project #N`
fallback) of each requested project whose error flag is set (lines
252-255); with explicitly-given selectors it is always empty, because
line 259 tests the selector string for membership among the
`SeelieProject` objects.  The claim's verbosity-independence (and, for
explicit selectors, the failing-projects content) is refuted by
`summary_verbosity_cex`. -/
theorem summary_verbosity_gated (env : Env) (ps : List SeelieProject) (mode : String)
    (nms? : Option (List String)) (verbose : Nat) (merge : Bool) (r : ApplyResult)
    (h : Seelie.applyRun env ps mode nms? verbose merge = some (.ok r)) :
    (r.summary.isSome ↔ verbose ≠ 0) ∧
    (∀ sm, r.summary = some sm →
      sm.unknown = sortStr r.state.unknownProjects ∧
      sm.errPaths = sortStr (r.state.errorPaths.map pathOfPyVal) ∧
      List.Sorted (· ≤ ·) sm.errPaths ∧
      sm.errPaths.Perm (r.state.errorPaths.map pathOfPyVal) ∧
      (nms? = none → sm.errProjects =
        (r.requested.filter (fun i => r.state.errorProjects.getD i false)).map
          (projectLabel ps)) ∧
      (∀ ns, nms? = some ns → sm.errProjects = [])) := by
  obtain ⟨reqIdx, unknown0, s, hres, hrun, rfl⟩ := applyRun_ok_elim h
  constructor
  · by_cases hv : verbose ≠ 0
    · simp [hv]
    · simp [hv]
  · intro sm hsm
    by_cases hv : verbose ≠ 0
    · simp only [if_pos hv, Option.some.injEq] at hsm
      subst hsm
      refine ⟨rfl, rfl, sortStr_sorted _, sortStr_perm _, ?_, ?_⟩
      · intro hnone
        subst hnone
        exact mkSummary_defaulted ps reqIdx s
      · intro ns hns
        subst hns
        exact mkSummary_explicit_empty ps ns reqIdx s
    · simp only [if_neg hv] at hsm
      cases hsm

theorem summary_verbosity_gated_witness :
    ((runResultD (Seelie.applyRun envFail psOnePath "update" (some ["a"]) 1
      false)).summary.isSome ↔ (1 : Nat) ≠ 0) ∧
    (summaryD (Seelie.applyRun envFail psOnePath "update" (some ["a"]) 1 false)).errPaths =
      sortStr ((runResultD (Seelie.applyRun envFail psOnePath "update" (some ["a"]) 1
        false)).state.errorPaths.map pathOfPyVal) ∧
    List.Sorted (· ≤ ·)
      (summaryD (Seelie.applyRun envFail psOnePath "update" (some ["a"]) 1
        false)).errPaths ∧
    (summaryD (Seelie.applyRun envFail psOnePath "update" (some ["a"]) 1
      false)).errProjects = [] ∧
    (summaryD (Seelie.applyRun envFail psOnePath "update" none 1
      false)).errProjects =
      (((runResultD (Seelie.applyRun envFail psOnePath "update" none 1
        false)).requested.filter
          (fun i => (runResultD (Seelie.applyRun envFail psOnePath "update" none 1
            false)).state.errorProjects.getD i false)).map (projectLabel psOnePath)) := by
  have H := summary_verbosity_gated envFail psOnePath "update" (some ["a"]) 1 false
    (runResultD (Seelie.applyRun envFail psOnePath "update" (some ["a"]) 1 false)) rfl
  have hsm : (runResultD (Seelie.applyRun envFail psOnePath "update" (some ["a"]) 1
      false)).summary =
      some (summaryD (Seelie.applyRun envFail psOnePath "update" (some ["a"]) 1 false)) :=
    rfl
  have H0 := summary_verbosity_gated envFail psOnePath "update" none 1 false
    (runResultD (Seelie.applyRun envFail psOnePath "update" none 1 false)) rfl
  have hsm0 : (runResultD (Seelie.applyRun envFail psOnePath "update" none 1
      false)).summary =
      some (summaryD (Seelie.applyRun envFail psOnePath "update" none 1 false)) :=
    rfl
  exact ⟨H.1, (H.2 _ hsm).2.1, (H.2 _ hsm).2.2.1, (H.2 _ hsm).2.2.2.2.2 ["a"] rfl,
    (H0.2 _ hsm0).2.2.2.2.1 rfl⟩

/-! ## C6 (amended): what null selectors actually visit -/

/-- Whether an item is a reference. -/
def isRefItem : SeelieItem → Bool
  | .ref _ => true
  | .path _ => false

/-- The indices of the auto projects, in registry order, starting at
`base`. -/
def autoIdxAux : Nat → List SeelieProject → List Nat
  | _, [] => []
  | base, p :: rest =>
    if p.auto then base :: autoIdxAux (base + 1) rest
    else autoIdxAux (base + 1) rest

/-- The indices of the auto projects, in registry order. -/
def autoIdx (ps : List SeelieProject) : List Nat := autoIdxAux 0 ps

theorem autoIdxAux_le :
    ∀ (base : Nat) (l : List SeelieProject) (j : Nat), j ∈ autoIdxAux base l → base ≤ j := by
  intro base l
  induction l generalizing base with
  | nil => intro j hj; simp [autoIdxAux] at hj
  | cons p rest ih =>
    intro j hj
    simp only [autoIdxAux] at hj
    split at hj
    · rcases List.mem_cons.mp hj with rfl | hj'
      · exact Nat.le_refl _
      · have := ih (base + 1) j hj'
        omega
    · have := ih (base + 1) j hj
      omega

theorem autoIdxAux_nodup : ∀ (base : Nat) (l : List SeelieProject),
    (autoIdxAux base l).Nodup := by
  intro base l
  induction l generalizing base with
  | nil => simp [autoIdxAux]
  | cons p rest ih =>
    simp only [autoIdxAux]
    split
    · refine List.Nodup.cons ?_ (ih (base + 1))
      intro hmem
      have := autoIdxAux_le (base + 1) rest base hmem
      omega
    · exact ih (base + 1)

theorem buildNamesAux_name :
    ∀ (k : Nat) (l : List SeelieProject) (q : String) (j : Nat),
      buildNamesAux k l q = some j →
      ∃ m, m < l.length ∧ j = k + m ∧ (l.getD m default).name = some q := by
  intro k l
  induction l generalizing k with
  | nil => intro q j h; simp [buildNamesAux] at h
  | cons p rest ih =>
    intro q j h
    simp only [buildNamesAux] at h
    split at h
    · next j' hj' =>
      cases h
      obtain ⟨m, hm, rfl, hname⟩ := ih (k + 1) q j hj'
      exact ⟨m + 1, by simpa using hm, by omega, by simpa [List.getD] using hname⟩
    · split at h
      · next n hn =>
        split at h
        · next hqn =>
          cases h
          exact ⟨0, by simp, by omega, by simp [List.getD, hn, hqn]⟩
        · cases h
      · cases h

theorem buildNamesAux_unique :
    ∀ (k : Nat) (l : List SeelieProject) (q : String) (m : Nat),
      m < l.length → (l.getD m default).name = some q →
      (∀ m', m' < l.length → (l.getD m' default).name = some q → m' = m) →
      buildNamesAux k l q = some (k + m) := by
  intro k l
  induction l generalizing k with
  | nil => intro q m hm; simp at hm
  | cons p rest ih =>
    intro q m hm hname huniq
    simp only [buildNamesAux]
    cases m with
    | zero =>
      have hp : p.name = some q := by simpa [List.getD] using hname
      cases hrest : buildNamesAux (k + 1) rest q with
      | some j =>
        obtain ⟨m', hm', rfl, hname'⟩ := buildNamesAux_name (k + 1) rest q j hrest
        have : m' + 1 = 0 := huniq (m' + 1) (by simpa using hm')
          (by simpa [List.getD] using hname')
        cases this
      | none => simp [hp]
    | succ m' =>
      have hnr : (rest.getD m' default).name = some q := by
        simpa [List.getD] using hname
      have huniq' : ∀ m'', m'' < rest.length → (rest.getD m'' default).name = some q →
          m'' = m' := by
        intro m'' hm'' hname''
        have := huniq (m'' + 1) (by simpa using hm'') (by simpa [List.getD] using hname'')
        omega
      have hres := ih (k + 1) q m' (by simpa using hm) hnr huniq'
      rw [hres]
      show some (k + 1 + m') = some (k + (m' + 1))
      simp only [Option.some.injEq]
      omega

theorem resolveAuto_autoIdx (ps : List SeelieProject) :
    ∀ (l : List SeelieProject) (base : Nat),
      (∀ m, m < l.length → (l.getD m default).auto = true →
        ∃ q, (l.getD m default).name = some q ∧ buildNames ps q = some (base + m)) →
      resolveAuto (buildNames ps) (autoNames l) = .ok (autoIdxAux base l) := by
  intro l
  induction l with
  | nil => intro base _; rfl
  | cons p rest ih =>
    intro base h
    have hshift : ∀ m, m < rest.length → (rest.getD m default).auto = true →
        ∃ q, (rest.getD m default).name = some q ∧
          buildNames ps q = some ((base + 1) + m) := by
      intro m hm hauto
      obtain ⟨q, hq, hl⟩ := h (m + 1) (by simpa using hm) (by simpa [List.getD] using hauto)
      refine ⟨q, by simpa [List.getD] using hq, ?_⟩
      rw [hl]
      congr 1
      omega
    by_cases hauto : p.auto = true
    · obtain ⟨q, hq, hl⟩ := h 0 (by simp) (by simpa [List.getD] using hauto)
      have hq' : p.name = some q := by simpa [List.getD] using hq
      have hnames : autoNames (p :: rest) = p.name :: autoNames rest := by
        simp [autoNames, List.filter_cons, hauto]
      rw [hnames, hq']
      simp only [resolveAuto]
      rw [show base + 0 = base by omega] at hl
      rw [hl, ih (base + 1) hshift]
      simp [autoIdxAux, hauto]
    · have hnames : autoNames (p :: rest) = autoNames rest := by
        simp [autoNames, List.filter_cons, hauto]
      rw [hnames, ih (base + 1) hshift]
      simp [autoIdxAux, hauto]

theorem processItems_no_ref {env : Env} {mode : String} {verbose : Nat} {merge : Bool}
    {namesF : String → Option Nat}
    {visit : Nat → TravState → Option (Except PyExc (Bool × TravState))} {i : Nat} :
    ∀ {items : List SeelieItem} {k : Nat} {acc : Bool} {s : TravState} {b : Bool}
      {s' : TravState},
      (∀ item ∈ items, isRefItem item = false) →
      processItems env mode verbose merge namesF visit i k items acc s =
        some (.ok (b, s')) →
      s'.visitTrace = s.visitTrace ∧ s'.visitedProjects = s.visitedProjects := by
  intro items
  induction items with
  | nil =>
    intro k acc s b s' _ h
    simp only [processItems, Option.some.injEq, Except.ok.injEq, Prod.mk.injEq] at h
    obtain ⟨-, rfl⟩ := h
    exact ⟨rfl, rfl⟩
  | cons item rest ih =>
    intro k acc s b s' hall h
    simp only [processItems] at h
    split at h
    · exact absurd h (by simp)
    · exact absurd h (by simp)
    · next err s1 hpi =>
      have hkeep : s1.visitTrace = s.visitTrace ∧
          s1.visitedProjects = s.visitedProjects := by
        cases item with
        | ref n =>
          exact absurd (hall (SeelieItem.ref n) (by simp)) (by simp [isRefItem])
        | path p =>
          simp only [processItem] at hpi
          split at hpi
          · simp only [Option.some.injEq, Except.ok.injEq, Prod.mk.injEq] at hpi
            obtain ⟨-, rfl⟩ := hpi
            exact ⟨rfl, rfl⟩
          · split at hpi
            · simp at hpi
            · split at hpi
              · simp at hpi
              · split at hpi <;>
                · simp only [Option.some.injEq, Except.ok.injEq, Prod.mk.injEq] at hpi
                  obtain ⟨-, rfl⟩ := hpi
                  exact ⟨rfl, rfl⟩
      obtain ⟨ht2, hv2⟩ := ih (fun it hit => hall it (by simp [hit])) h
      exact ⟨ht2.trans hkeep.1, hv2.trans hkeep.2⟩

theorem runProjects_no_ref (env : Env) (ps : List SeelieProject) (mode : String)
    (verbose : Nat) (merge : Bool)
    (hnoref : ∀ i, ∀ item ∈ itemsOf ps i, isRefItem item = false) :
    ∀ (req : List Nat) (s s' : TravState), req.Nodup →
      (∀ i ∈ req, s.visitedProjects.getD i false = false) →
      runProjects env ps mode verbose merge (ps.length + 1) req s = some (.ok s') →
      s'.visitTrace = s.visitTrace ++ req := by
  intro req
  induction req with
  | nil =>
    intro s s' _ _ h
    simp only [runProjects, Option.some.injEq, Except.ok.injEq] at h
    subst h
    simp
  | cons i rest ih =>
    intro s s' hnd hfresh h
    simp only [runProjects] at h
    split at h
    · exact absurd h (by simp)
    · exact absurd h (by simp)
    · next b s1 hap =>
      simp only [applyProject] at hap
      rw [if_neg (by rw [hfresh i (by simp)]; simp)] at hap
      split at hap
      · exact absurd hap (by simp)
      · exact absurd hap (by simp)
      · next anyError s2 hpi =>
        simp only [Option.some.injEq, Except.ok.injEq, Prod.mk.injEq] at hap
        obtain ⟨-, rfl⟩ := hap
        obtain ⟨htr, hvp⟩ := processItems_no_ref (hnoref i) hpi
        have hfresh' : ∀ i' ∈ rest,
            ({ s2 with errorProjects := s2.errorProjects.set i anyError } :
              TravState).visitedProjects.getD i' false = false := by
          intro i' hi'
          show s2.visitedProjects.getD i' false = false
          rw [hvp]
          show (s.visitedProjects.set i true).getD i' false = false
          have hne : i ≠ i' := by
            intro hii
            subst hii
            exact (List.nodup_cons.mp hnd).1 hi'
          rw [getD_set_ne _ _ _ _ _ hne]
          exact hfresh i' (by simp [hi'])
        have := ih _ s' (List.nodup_cons.mp hnd).2 hfresh' h
        rw [this]
        show s2.visitTrace ++ rest = s.visitTrace ++ i :: rest
        rw [htr]
        show (s.visitTrace ++ [i]) ++ rest = s.visitTrace ++ i :: rest
        simp

/-- C6 (amended): calling apply with selectors null requests exactly the
name-map resolutions of the auto projects' names; when the registry has
injectively-named projects (all auto ones named) and contains no Reference
items, the run visits exactly the auto projects, in registry order.  In
general a visited project may be non-auto (reachable through a reference,
see `null_selectors_cex`).  In the concrete two-project registry `a`
(auto) / `b` (non-auto), selectors=null visits only `a` and
selectors=["b"] visits only `b`. -/
theorem null_selectors_request_auto (env : Env) (ps : List SeelieProject)
    (mode : String) (verbose : Nat) (merge : Bool)
    (hnamed : ∀ p ∈ ps, p.auto = true → p.name.isSome = true)
    (hinj : ∀ m, m < ps.length → ∀ m', m' < ps.length →
      (ps.getD m default).name ≠ none →
      (ps.getD m default).name = (ps.getD m' default).name → m = m')
    (hnoref : ∀ proj ∈ ps, ∀ item ∈ proj.items, isRefItem item = false) :
    resolveAuto (buildNames ps) (autoNames ps) = .ok (autoIdx ps) ∧
    (∀ r, Seelie.applyRun env ps mode none verbose merge = some (.ok r) →
      r.requested = autoIdx ps ∧ r.state.visitTrace = autoIdx ps) ∧
    ((runStateD (Seelie.applyRun env0 psAB "update" none 0 false)).visitTrace = [0] ∧
      (runStateD (Seelie.applyRun env0 psAB "update" (some ["b"]) 0
        false)).visitTrace = [1]) := by
  have hresolve : resolveAuto (buildNames ps) (autoNames ps) = .ok (autoIdx ps) := by
    refine resolveAuto_autoIdx ps ps 0 ?_
    intro m hm hauto
    have hmem : ps.getD m default ∈ ps := getD_mem_of_lt ps m default hm
    have := hnamed _ hmem hauto
    cases hname : (ps.getD m default).name with
    | none => rw [hname] at this; simp at this
    | some q =>
      refine ⟨q, rfl, ?_⟩
      have huniq : ∀ m', m' < ps.length → (ps.getD m' default).name = some q →
          m' = m := by
        intro m' hm' hname'
        exact (hinj m hm m' hm' (by rw [hname]; simp)
          (by rw [hname, hname'])).symm ▸ rfl
      have := buildNamesAux_unique 0 ps q m hm hname huniq
      simpa using this
  refine ⟨hresolve, ?_, by decide, by decide⟩
  intro r h
  obtain ⟨reqIdx, unknown0, s, hres, hrun, rfl⟩ := applyRun_ok_elim h
  rw [hresolve] at hres
  simp only [Except.map, Except.ok.injEq, Prod.mk.injEq] at hres
  obtain ⟨rfl, rfl⟩ := hres.symm
  have hnoref' : ∀ i, ∀ item ∈ itemsOf ps i, isRefItem item = false := by
    intro i item hitem
    by_cases hi : i < ps.length
    · exact hnoref (ps.getD i default) (getD_mem_of_lt ps i default hi) item hitem
    · rw [itemsOf_of_le ps i (by omega)] at hitem
      simp at hitem
  have htrace := runProjects_no_ref env ps mode verbose merge hnoref' (autoIdx ps) _ s
    (autoIdxAux_nodup 0 ps) (fun i _ => getD_replicate_false _ _) hrun
  exact ⟨rfl, by rw [htrace]; simp⟩

/-! ## C9: trailing separator iff existing directory -/

theorem splitSlash_ne_nil : ∀ (cs : List Char), splitSlash cs ≠ [] := by
  intro cs
  cases cs with
  | nil => simp [splitSlash]
  | cons c cs' =>
    simp only [splitSlash]
    split
    · simp
    · split
      · simp
      · simp

theorem splitSlash_no_slash :
    ∀ (cs : List Char) (piece : List Char), piece ∈ splitSlash cs → '/' ∉ piece := by
  intro cs
  induction cs with
  | nil =>
    intro piece hp
    simp only [splitSlash, List.mem_singleton] at hp
    subst hp
    simp
  | cons c cs' ih =>
    intro piece hp
    simp only [splitSlash] at hp
    split at hp
    · rcases List.mem_cons.mp hp with rfl | hp'
      · simp
      · exact ih piece hp'
    · next hc =>
      split at hp
      · next hnil => exact absurd hnil (splitSlash_ne_nil cs')
      · next h t hht =>
        rcases List.mem_cons.mp hp with rfl | hp'
        · intro hin
          rcases List.mem_cons.mp hin with heq | hin'
          · exact hc heq.symm
          · exact ih h (by rw [hht]; simp) hin'
        · exact ih piece (by rw [hht]; simp [hp'])

/-- All retained components are nonempty and slash-free. -/
def GoodComps (l : List (List Char)) : Prop :=
  ∀ piece ∈ l, piece ≠ [] ∧ '/' ∉ piece

theorem normpathStep_good (isl : Nat) (acc : List (List Char)) (comp : List Char)
    (hacc : GoodComps acc) (hcomp : '/' ∉ comp) :
    GoodComps (normpathStep isl acc comp) := by
  unfold normpathStep
  split
  · exact hacc
  · next hne =>
    have hcompne : comp ≠ [] := fun h => hne (Or.inl h)
    split
    · intro piece hp
      rcases List.mem_append.mp hp with hp' | hp'
      · exact hacc piece hp'
      · have hpc : piece = comp := by simpa using hp'
        subst hpc
        exact ⟨hcompne, hcomp⟩
    · split
      · intro piece hp
        exact hacc piece (List.dropLast_subset acc hp)
      · exact hacc

theorem foldl_normpathStep_good (isl : Nat) :
    ∀ (comps : List (List Char)) (acc : List (List Char)),
      GoodComps acc → (∀ c ∈ comps, '/' ∉ c) →
      GoodComps (comps.foldl (normpathStep isl) acc) := by
  intro comps
  induction comps with
  | nil => intro acc h _; exact h
  | cons c rest ih =>
    intro acc hacc hall
    exact ih _ (normpathStep_good isl acc c hacc (hall c (by simp)))
      (fun c' hc' => hall c' (by simp [hc']))

theorem lastOpt_ne_none {α : Type} : ∀ (l : List α), l ≠ [] → lastOpt l ≠ none := by
  intro l h
  cases l with
  | nil => exact absurd rfl h
  | cons a rest => exact lastOpt_cons_ne_none a rest

theorem lastOpt_mem {α : Type} :
    ∀ (l : List α), l ≠ [] → ∃ c, lastOpt l = some c ∧ c ∈ l := by
  intro l
  induction l with
  | nil => intro h; exact absurd rfl h
  | cons a rest ih =>
    intro _
    cases rest with
    | nil => exact ⟨a, rfl, by simp⟩
    | cons b t =>
      obtain ⟨c, hc, hmem⟩ := ih (by simp)
      exact ⟨c, by simpa [lastOpt] using hc, by simp [hmem]⟩

theorem lastOpt_append {α : Type} :
    ∀ (l1 l2 : List α), l2 ≠ [] → lastOpt (l1 ++ l2) = lastOpt l2 := by
  intro l1 l2 h2
  induction l1 with
  | nil => rfl
  | cons a l1' ih =>
    show lastOpt (a :: (l1' ++ l2)) = lastOpt l2
    rw [lastOpt_cons]
    cases hl : lastOpt (l1' ++ l2) with
    | none =>
      have : l1' ++ l2 ≠ [] := by
        intro hnil
        exact h2 (List.append_eq_nil.mp hnil).2
      exact absurd hl (lastOpt_ne_none _ this)
    | some c =>
      show some c = lastOpt l2
      rw [← ih, hl]

theorem joinSlash_ne_nil :
    ∀ (l : List (List Char)), l ≠ [] → GoodComps l → joinSlash l ≠ [] := by
  intro l h hg
  cases l with
  | nil => exact absurd rfl h
  | cons x rest =>
    cases rest with
    | nil => simpa [joinSlash] using (hg x (by simp)).1
    | cons y t =>
      show x ++ '/' :: joinSlash (y :: t) ≠ []
      simp

theorem joinSlash_good_last :
    ∀ (l : List (List Char)), l ≠ [] → GoodComps l →
      ∃ c, lastOpt (joinSlash l) = some c ∧ c ≠ '/' := by
  intro l
  induction l with
  | nil => intro h _; exact absurd rfl h
  | cons x rest ih =>
    intro _ hgood
    cases rest with
    | nil =>
      obtain ⟨hne, hns⟩ := hgood x (by simp)
      obtain ⟨c, hc, hcm⟩ := lastOpt_mem x hne
      exact ⟨c, by simpa [joinSlash] using hc, fun h => hns (h ▸ hcm)⟩
    | cons y t =>
      obtain ⟨c, hc, hcne⟩ := ih (by simp) (fun p hp => hgood p (by simp [hp]))
      refine ⟨c, ?_, hcne⟩
      show lastOpt (x ++ '/' :: joinSlash (y :: t)) = some c
      rw [lastOpt_append _ _ (by simp), lastOpt_cons, hc]
      rfl

theorem initialSlashesOf_le (cs : List Char) : initialSlashesOf cs ≤ 2 := by
  unfold initialSlashesOf
  split
  · split <;> omega
  · omega

theorem normpathRes_trailing (cs : List Char)
    (h : endsWithSlash (String.mk (normpathRes cs)) = true) :
    normpathRes cs = ['/'] ∨ normpathRes cs = ['/', '/'] := by
  have hgood : GoodComps ((splitSlash cs).foldl
      (normpathStep (initialSlashesOf cs)) []) :=
    foldl_normpathStep_good (initialSlashesOf cs) (splitSlash cs) []
      (by intro p hp; simp at hp) (splitSlash_no_slash cs)
  unfold normpathRes at h ⊢
  by_cases hnil : (splitSlash cs).foldl (normpathStep (initialSlashesOf cs)) [] = []
  · rw [hnil] at h ⊢
    simp only [joinSlash, List.append_nil] at h ⊢
    have hle : initialSlashesOf cs ≤ 2 := initialSlashesOf_le cs
    have h012 : initialSlashesOf cs = 0 ∨ initialSlashesOf cs = 1 ∨
        initialSlashesOf cs = 2 := by omega
    rcases h012 with h0 | h0 | h0 <;> rw [h0] at h ⊢
    · exact absurd h (by decide)
    · left; decide
    · right; decide
  · have hJne : joinSlash ((splitSlash cs).foldl
        (normpathStep (initialSlashesOf cs)) []) ≠ [] :=
      joinSlash_ne_nil _ hnil hgood
    obtain ⟨c, hc, hcne⟩ := joinSlash_good_last _ hnil hgood
    have hlast : lastOpt (List.replicate (initialSlashesOf cs) '/' ++
        joinSlash ((splitSlash cs).foldl (normpathStep (initialSlashesOf cs)) [])) =
        some c := by
      rw [lastOpt_append _ _ hJne]
      exact hc
    simp only [endsWithSlash] at h
    rw [hlast] at h
    simp at h
    exact absurd h hcne

theorem normpath_trailing (x : String) (h : endsWithSlash (normpath x) = true) :
    normpath x = "/" ∨ normpath x = "//" := by
  by_cases hx : x = ""
  · subst hx
    exact absurd h (by decide)
  · simp only [normpath, if_neg hx] at h ⊢
    by_cases hres : normpathRes x.data = []
    · rw [if_pos hres] at h
      exact absurd h (by decide)
    · rw [if_neg hres] at h ⊢
      rcases normpathRes_trailing x.data h with h1 | h1
      · exact Or.inl (by rw [h1])
      · exact Or.inr (by rw [h1])

theorem normpath_ne_empty (x : String) : normpath x ≠ "" := by
  unfold normpath
  split
  · simp
  · split
    · simp
    · next hres =>
      intro heq
      apply hres
      have hdata : (String.mk (normpathRes x.data)).data = ("" : String).data := by
        rw [heq]
      simpa using hdata

theorem joinEmpty_ends (p : String) (hne : p ≠ "") :
    endsWithSlash (joinEmpty p) = true := by
  unfold joinEmpty
  rw [if_neg hne]
  split
  · next hl => simp [endsWithSlash, hl]
  · simp only [endsWithSlash]
    rw [String.data_append]
    rw [show ("/" : String).data = ['/'] from rfl]
    rw [lastOpt_append _ _ (by simp)]
    rfl

/-- C9: the `SeeliePath` constructor stores the home-directory-expanded,
normalized path (`normpath(expanduser(path))`), with
`os.path.join(path, "")` applied when that path is an existing directory;
and — on any filesystem where the root paths `"/"` and `"//"` are
directories, as on every POSIX system — the stored canonical path ends with
the path separator if and only if it denotes an existing directory at
construction time. -/
theorem seeliePath_canonical (env : Env) (rawPath : String) (tool origin : Option String)
    (hroot1 : env.isdir "/" = true) (hroot2 : env.isdir "//" = true) :
    ((SeeliePath.init env rawPath tool origin).path =
      if env.isdir (normpath (env.expanduser rawPath)) then
        joinEmpty (normpath (env.expanduser rawPath))
      else normpath (env.expanduser rawPath)) ∧
    endsWithSlash (SeeliePath.init env rawPath tool origin).path =
      env.isdir (normpath (env.expanduser rawPath)) := by
  refine ⟨rfl, ?_⟩
  by_cases hd : env.isdir (normpath (env.expanduser rawPath)) = true
  · have hpath : (SeeliePath.init env rawPath tool origin).path =
        joinEmpty (normpath (env.expanduser rawPath)) := by
      simp [SeeliePath.init, hd]
    rw [hpath, hd]
    exact joinEmpty_ends _ (normpath_ne_empty _)
  · have hd' : env.isdir (normpath (env.expanduser rawPath)) = false := by
      revert hd
      cases env.isdir (normpath (env.expanduser rawPath)) <;> simp
    have hpath : (SeeliePath.init env rawPath tool origin).path =
        normpath (env.expanduser rawPath) := by
      simp [SeeliePath.init, hd']
    rw [hpath, hd']
    by_contra hcon
    have hT : endsWithSlash (normpath (env.expanduser rawPath)) = true := by
      revert hcon
      cases endsWithSlash (normpath (env.expanduser rawPath)) <;> simp
    rcases normpath_trailing _ hT with h1 | h1
    · rw [h1, hroot1] at hd'
      cases hd'
    · rw [h1, hroot2] at hd'
      cases hd'

/-- A filesystem in which `/`, `//` and `/d` are directories. -/
def env9 : Env :=
  { expanduser := id,
    isdir := fun s => s == "/" || s == "//" || s == "/d",
    chdirOk := fun _ => true, call := fun _ => .exit 0,
    checkOutput := fun _ => .output "", hostname := "h", timeStr := "t" }

theorem seeliePath_canonical_witness :
    ((SeeliePath.init env9 "/d" none none).path =
      if env9.isdir (normpath (env9.expanduser "/d")) then
        joinEmpty (normpath (env9.expanduser "/d"))
      else normpath (env9.expanduser "/d")) ∧
    endsWithSlash (SeeliePath.init env9 "/d" none none).path =
      env9.isdir (normpath (env9.expanduser "/d")) :=
  seeliePath_canonical env9 "/d" none none (by decide) (by decide)

theorem null_selectors_request_auto_witness :
    resolveAuto (buildNames psAB) (autoNames psAB) = .ok (autoIdx psAB) ∧
    ((runResultD (Seelie.applyRun env0 psAB "update" none 0 false)).requested =
        autoIdx psAB ∧
      (runResultD (Seelie.applyRun env0 psAB "update" none 0 false)).state.visitTrace =
        autoIdx psAB) ∧
    ((runStateD (Seelie.applyRun env0 psAB "update" none 0 false)).visitTrace = [0] ∧
      (runStateD (Seelie.applyRun env0 psAB "update" (some ["b"]) 0
        false)).visitTrace = [1]) := by
  have H := null_selectors_request_auto env0 psAB "update" 0 false
    (by decide) (by decide) (by decide)
  exact ⟨H.1, H.2.1 (runResultD (Seelie.applyRun env0 psAB "update" none 0 false)) rfl,
    H.2.2⟩

/-! ## C10: rsync with a missing origin raises an uncaught `TypeError` -/

theorem processItem_rsync_none (env : Env) (mode : String) (verbose : Nat)
    (merge : Bool) (namesF : String → Option Nat)
    (visit : Nat → TravState → Option (Except PyExc (Bool × TravState)))
    (i k : Nat) (p : SeeliePath) (s : TravState)
    (hm : mode = "update" ∨ mode = "push")
    (ht : p.tool = some "rsync") (ho : p.origin = none)
    (hfresh : s.visitedPaths.any (· == p.path) = false) :
    processItem env mode verbose merge namesF visit i k (SeelieItem.path p) s =
      some (.error PyExc.typeError) := by
  have htool : syncLookup p.tool = some SyncTool.rsync := by rw [ht]; rfl
  have hdisp : dispatchSync env mode SyncTool.rsync p.path p.origin merge
      (decide (1 < verbose)) = .error PyExc.typeError := by
    rcases hm with rfl | rfl
    · rw [ho]
      rfl
    · rw [ho]
      rfl
  simp only [processItem, hfresh, Bool.false_eq_true, if_false, htool, hdisp]

theorem processItems_head_rsync_none (env : Env) (mode : String) (verbose : Nat)
    (merge : Bool) (namesF : String → Option Nat)
    (visit : Nat → TravState → Option (Except PyExc (Bool × TravState)))
    (i : Nat) (p : SeeliePath) (rest : List SeelieItem) (acc : Bool) (s : TravState)
    (hm : mode = "update" ∨ mode = "push")
    (ht : p.tool = some "rsync") (ho : p.origin = none)
    (hfresh : s.visitedPaths.any (· == p.path) = false) :
    processItems env mode verbose merge namesF visit i 0 (SeelieItem.path p :: rest)
      acc s = some (.error PyExc.typeError) := by
  simp only [processItems,
    processItem_rsync_none env mode verbose merge namesF visit i 0 p s hm ht ho hfresh]

/-- C10: for a Path item whose tool identifier is `"rsync"` and whose
origin attribute is absent, apply in update or push mode forwards
`src`/`dest` = `None` into the rsync argument tuple; `subprocess.call`
raises `TypeError` for the `None` argument, the backend's `except OSError`
handler does not catch it, and the exception escapes `apply` instead of
being recorded as a path failure. -/
theorem rsync_missing_origin_escapes (env : Env) (ps : List SeelieProject)
    (mode nm : String) (verbose : Nat) (merge : Bool) (i : Nat) (p : SeeliePath)
    (rest : List SeelieItem)
    (hm : mode = "update" ∨ mode = "push")
    (hn : buildNames ps nm = some i)
    (hit : itemsOf ps i = SeelieItem.path p :: rest)
    (ht : p.tool = some "rsync")
    (ho : p.origin = none) :
    Seelie.applyRun env ps mode (some [nm]) verbose merge =
      some (.error PyExc.typeError) := by
  have hA : List.filterMap (buildNames ps) [nm] = [i] := by
    simp [List.filterMap_cons, hn]
  have hB : List.foldl (fun acc n => if ((buildNames ps) n).isSome then acc
      else setAddStr acc n) [] [nm] = [] := by
    simp [hn]
  have hap : applyProject env ps mode verbose merge (ps.length + 1) i
      { visitedPaths := [], visitedProjects := List.replicate ps.length false,
        errorPaths := [], errorProjects := List.replicate ps.length false,
        unknownProjects := [], visitTrace := [] } = some (.error PyExc.typeError) := by
    simp only [applyProject]
    rw [if_neg (by rw [getD_replicate_false]; simp), hit]
    rw [processItems_head_rsync_none env mode verbose merge (buildNames ps)
      (fun j t => applyProject env ps mode verbose merge ps.length j t) i p rest
      false
      { visitedPaths := [],
        visitedProjects := (List.replicate ps.length false).set i true,
        errorPaths := [], errorProjects := List.replicate ps.length false,
        unknownProjects := [], visitTrace := [] ++ [i] }
      hm ht ho rfl]
  simp only [Seelie.applyRun, hA, hB]
  simp only [runProjects, hap]

/-- One auto project with a single rsync-tooled path carrying no origin. -/
def psRsync : List SeelieProject :=
  [ { name := some "r", auto := true,
      items := [SeelieItem.path ⟨"/p", some "rsync", none⟩] } ]

theorem rsync_missing_origin_escapes_witness :
    Seelie.applyRun env0 psRsync "update" (some ["r"]) 0 false =
      some (.error PyExc.typeError) :=
  rsync_missing_origin_escapes env0 psRsync "update" "r" 0 false 0
    { path := "/p", tool := some "rsync", origin := none } [] (Or.inl rfl)
    (by decide) (by decide) (by decide) (by decide)
